import Mathlib

/-!
# Utils::FileSystem (es-core/src/utils/FileSystemUtil.cpp)

A shallow embedding of the path helpers of `FileSystemUtil.cpp`.

* A `std::string` is the list of its characters (`Str`), a `Char` standing for one `char`.
* `while` loops whose exit depends on the data are bounded by a fuel argument and
  return `none` when the fuel runs out; the theorems show how much fuel is enough.
* Operating-system calls (`getcwd`, `getenv`, `stat`, `lstat`, `readlink`, ...) are
  fields of the records `Env` and `FS`.  A path handed to the operating system goes
  through `c_str()`, which ends at the first NUL character (`cstr`).
* The two `#if defined(_WIN32)` branches are selected by a Boolean `win`.
-/

namespace Utils.FileSystem

/-! ## std::string -/

/-- A `std::string`: the sequence of its characters. -/
abbrev Str := List Char

/-- `s.find(pat)`: the offset of the first occurrence of `pat` in `s`, `none` for `npos`. -/
def find (pat : Str) : Str → Option Nat
  | [] => if pat.isPrefixOf [] then some 0 else none
  | c :: rest => if pat.isPrefixOf (c :: rest) then some 0 else (find pat rest).map (· + 1)

/-- `s.erase(pos, n)`. -/
def erase (s : Str) (pos n : Nat) : Str := s.take pos ++ s.drop (pos + n)

/-- `s.replace(pos, n, t)`. -/
def replace (s : Str) (pos n : Nat) (t : Str) : Str := s.take pos ++ t ++ s.drop (pos + n)

/-- `s.find_last_of(c)`: the offset of the last occurrence of `c`, `none` for `npos`. -/
def find_last_of (c : Char) : Str → Option Nat
  | [] => none
  | d :: rest =>
    match find_last_of c rest with
    | some i => some (i + 1)
    | none => if d = c then some 0 else none

/-- The NUL character. -/
def NUL : Char := Char.ofNat 0

/-- `s.c_str()` read as a C string: the characters before the first NUL. -/
def cstr (s : Str) : Str := s.takeWhile (· ≠ NUL)

/-- `s[i]` for `i ≤ s.size()`: position `s.size()` holds the terminating NUL. -/
def charAt (s : Str) (i : Nat) : Char := s.getD i NUL

/-- `s.resize(n)`: cut to `n` characters or padded with NUL characters. -/
def resize (s : Str) (n : Nat) : Str := s.take n ++ List.replicate (n - s.length) NUL

/-! ## genericPath -/

/-- The four characters `\\?\` removed from the front of a path. -/
def extendedLengthMark : Str := ['\\', '\\', '?', '\\']

/-- The loop `while((offset = path.find('\\')) != npos) path.replace(offset, 1, "/")`. -/
def backslashLoop : Nat → Str → Option Str
  | 0, _ => none
  | fuel + 1, path =>
    match find ['\\'] path with
    | some offset => backslashLoop fuel (replace path offset 1 ['/'])
    | none => some path

/-- The loop `while((offset = path.find("//")) != npos) path.erase(offset, 1)`. -/
def doubleSlashLoop : Nat → Str → Option Str
  | 0, _ => none
  | fuel + 1, path =>
    match find ['/', '/'] path with
    | some offset => doubleSlashLoop fuel (erase path offset 1)
    | none => some path

/-- The body of `genericPath`, each of its two loops running at most `fuel` times. -/
def genericPathFuel (fuel : Nat) (_path : Str) : Option Str :=
  let path := if find extendedLengthMark _path = some 0 then erase _path 0 4 else _path
  (backslashLoop fuel path).bind (doubleSlashLoop fuel)

/-- `genericPath(_path)`, run with `_path.size() + 1` rounds for each loop
(`genericPathFuel_eq` shows that this is always enough). -/
def genericPath (_path : Str) : Str :=
  (genericPathFuel (_path.length + 1) _path).getD []

/-! ### Closed forms used in the proofs -/

/-- What the first step of `genericPath` leaves. -/
def stripMark (p : Str) : Str :=
  if find extendedLengthMark p = some 0 then erase p 0 4 else p

/-- A backslash becomes a slash. -/
def toSlash (c : Char) : Char := if c = '\\' then '/' else c

/-- Every run of slashes shrinks to one slash. -/
def collapse : Str → Str
  | [] => []
  | c :: rest => if c = '/' ∧ rest.head? = some '/' then collapse rest else c :: collapse rest

/-! ## The operating system -/

/-- The file types told apart by `S_ISREG`, `S_ISDIR` and `S_ISLNK`. -/
inductive FileType where
  | regular
  | directory
  | symlink
  | other
  deriving DecidableEq, Repr

/-- The fields of `struct stat` read by the source. -/
structure Stat where
  /-- The file type held in `st_mode`. -/
  st_mode : FileType
  /-- The size in bytes; for a symbolic link the length of its link text. -/
  st_size : Nat
  deriving DecidableEq, Repr

/-- The filesystem as the source sees it: the answer of each system call on a C-string path. -/
structure FS where
  /-- `stat(path, &info)`: follows symbolic links; `none` when the call fails. -/
  stat : Str → Option Stat
  /-- `lstat(path, &info)`: does not follow a final symbolic link; `none` when the call fails. -/
  lstat : Str → Option Stat
  /-- The link text of `path`, `none` when `readlink` returns `-1`.  The call
  `readlink(path, buf, n)` stores the first `min(n, length)` characters of the link
  text in `buf` and returns that count. -/
  readlink : Str → Option Str
  /-- `GetFileAttributes(path)`, `none` for `INVALID_FILE_ATTRIBUTES`. -/
  getFileAttributes : Str → Option Nat
  /-- Whether `CreateFile(path, ..., OPEN_EXISTING, ...)` returns a valid handle. -/
  createFile : Str → Bool
  /-- `GetFinalPathNameByHandle(hFile, buf, size, FILE_NAME_NORMALIZED)` for the handle
  opened on `path`, given the buffer (`[]` for `nullptr, 0`): the return value and the
  buffer afterwards. -/
  getFinalPathNameByHandle : Str → Str → Nat × Str
  /-- The entry names that `readdir` yields, in its order, after `opendir(path)`; `none` when
  `opendir` returns null. -/
  opendir : Str → Option (List Str)
  /-- The file names that `FindFirstFile(pattern, ...)` and then `FindNextFile` yield, in their
  order; `none` when `FindFirstFile` returns `INVALID_HANDLE_VALUE`. -/
  findFiles : Str → Option (List Str)

/-- The process environment read by the source. -/
structure Env where
  /-- `getcwd(temp, 512)`: the working directory, `none` when the call returns null. -/
  getcwd : Option Str
  /-- `getenv(name)`: the value of the variable, `none` when the call returns a null pointer
  (the variable is not set). -/
  getenv : Str → Option Str

/-- Bit 10 (`0x400`) of the attribute word: `FILE_ATTRIBUTE_REPARSE_POINT`. -/
def FILE_ATTRIBUTE_REPARSE_POINT : Nat := 10

/-! ## Path decomposition -/

/-- `getParent(_path)`; `path.erase(offset)` keeps the first `offset` characters. -/
def getParent (_path : Str) : Str :=
  let path := genericPath _path
  match find_last_of '/' path with
  | some offset => path.take offset
  | none => path

/-- `getFileName(_path)`; `std::string(path, offset + 1)` is the rest from `offset + 1`. -/
def getFileName (_path : Str) : Str :=
  let path := genericPath _path
  match find_last_of '/' path with
  | some offset => if charAt path (offset + 1) = NUL then ['.'] else path.drop (offset + 1)
  | none => path

/-! ## Filesystem queries -/

/-- `isAbsolute(_path)`, `win` choosing the `_WIN32` branch. -/
def isAbsolute (win : Bool) (_path : Str) : Bool :=
  let path := genericPath _path
  if win then decide (path.length > 1) && (charAt path 1 == ':')
  else decide (path.length > 0) && (charAt path 0 == '/')

/-- `isRegularFile(_path)`. -/
def isRegularFile (fs : FS) (_path : Str) : Bool :=
  let path := genericPath _path
  match fs.stat (cstr path) with
  | none => false
  | some info => decide (info.st_mode = FileType.regular)

/-- `isDirectory(_path)`. -/
def isDirectory (fs : FS) (_path : Str) : Bool :=
  let path := genericPath _path
  match fs.stat (cstr path) with
  | none => false
  | some info => decide (info.st_mode = FileType.directory)

/-- `isSymlink(_path)`, `win` choosing the `_WIN32` branch. -/
def isSymlink (win : Bool) (fs : FS) (_path : Str) : Bool :=
  let path := genericPath _path
  if win then
    match fs.getFileAttributes (cstr path) with
    | some attributes => attributes.testBit FILE_ATTRIBUTE_REPARSE_POINT
    | none => false
  else
    match fs.lstat (cstr path) with
    | none => false
    | some info => decide (info.st_mode = FileType.symlink)

/-! ## Path resolution -/

/-- `getHomePath()`.  `cached` is the value of the function's `static std::string path` on
entry; the value returned is also the value of the static afterwards.  The source constructs a
`std::string` from the pointer that `getenv` returns without testing it: from a null pointer no
string is constructed and the call does not return a value, which is `none` here. -/
def getHomePath (win : Bool) (env : Env) (cached : Str) : Option Str :=
  let path := cached
  if path.length = 0 then
    match env.getenv "HOME".toList with
    | none => none
    | some home =>
      let envHome := cstr home
      let path := if envHome.length ≠ 0 then genericPath envHome else path
      if win && path.length = 0 then
        match env.getenv "HOMEDRIVE".toList with
        | none => none
        | some drive =>
          let envDir := cstr drive
          match env.getenv "HOMEPATH".toList with
          | none => none
          | some homePath =>
            let envPath := cstr homePath
            if envDir.length ≠ 0 && envPath.length ≠ 0 then
              some (genericPath (envDir ++ ['/'] ++ envPath))
            else some path
      else some path
  else some path

/-- `getCWDPath()`. -/
def getCWDPath (env : Env) : Str :=
  match env.getcwd with
  | some temp => genericPath (cstr temp)
  | none => []

/-- Modelled from the spec: the default argument of `absolutePath`.  It is declared in the header
`FileSystemUtil.h`, which is not part of the sources; the spec gives the signature as
`absolutePath(path, base = currentWorkingDirectory)`, so the default is `getCWDPath()`. -/
def defaultBase (env : Env) : Str := getCWDPath env

/-- `absolutePath(_path, _base)`; `none` when the nesting of self-calls exceeds `fuel`.  The
one-argument call `absolutePath(_base)` takes `defaultBase` as its base. -/
def absolutePath (win : Bool) (env : Env) : Nat → Str → Str → Option Str
  | 0, _, _ => none
  | fuel + 1, _path, _base =>
    let path := genericPath _path
    match (if isAbsolute win _base then some (genericPath _base)
           else absolutePath win env fuel _base (defaultBase env)) with
    | none => none
    | some base => some (if isAbsolute win path then path else genericPath (base ++ ['/'] ++ path))

/-- `resolvePath(_path, _relativeTo, _allowHome)`; `cached` is the static of `getHomePath`.
`&(path[1])` is a C string: the characters after the first up to the first NUL.  The result is
`none` when the call of `getHomePath` does not return a value. -/
def resolvePath (win : Bool) (env : Env) (fs : FS) (cached : Str)
    (_path _relativeTo : Str) (_allowHome : Bool) : Option Str :=
  let path := genericPath _path
  let relativeTo := if isDirectory fs _relativeTo then _relativeTo else getParent _relativeTo
  if path.length = 0 then some path
  else if charAt path 0 = '.' then some (genericPath (relativeTo ++ ['/'] ++ cstr (path.drop 1)))
  else if _allowHome && (charAt path 0 == '~') then
    match getHomePath win env cached with
    | none => none
    | some homePath => some (genericPath (homePath ++ ['/'] ++ cstr (path.drop 1)))
  else some path

/-- `resolveSymlink(_path)`, `win` choosing the `_WIN32` branch. -/
def resolveSymlink (win : Bool) (fs : FS) (_path : Str) : Str :=
  let path := genericPath _path
  let resolved : Str := []
  if win then
    if fs.createFile (cstr path) then
      let resolved := resize resolved ((fs.getFinalPathNameByHandle (cstr path) []).1 + 1)
      let r := fs.getFinalPathNameByHandle (cstr path) resolved
      if r.1 > 0 then genericPath (resize r.2 (r.2.length - 1)) else r.2
    else resolved
  else
    match fs.lstat (cstr path) with
    | none => resolved
    | some info =>
      let resolved := resize resolved info.st_size
      match fs.readlink (cstr path) with
      | none => resolved
      | some text =>
        let n := min resolved.length text.length
        if n > 0 then genericPath (text.take n ++ resolved.drop n) else resolved

/-! ## canonicalPath -/

/-- The splitting loop of `canonicalPath`, on `rest = path` from `start` on:
`while((end = path.find("/", start)) != npos)` pushes the piece before the slash, and the piece
after the last slash is pushed when it is not empty. -/
def splitLoop : Nat → Str → Option (List Str)
  | 0, _ => none
  | fuel + 1, rest =>
    match find ['/'] rest with
    | some len => (splitLoop fuel (rest.drop (len + 1))).map (rest.take len :: ·)
    | none => some (if rest.length ≠ 0 then [rest] else [])

/-- The `pathList` of `canonicalPath` (`splitLoop_eq`: the fuel is enough). -/
def pathList (path : Str) : List Str := (splitLoop (path.length + 1) path).getD []

/-- How one walk over `pathList` ends. -/
inductive Walk where
  /-- The `for` loop ran to the end with `scan == false`. -/
  | done (path : Str)
  /-- A symbolic link was spliced in, `scan = true; break`. -/
  | spliced (path : Str)
  /-- `return ""` after an empty `resolveSymlink`. -/
  | failed
  deriving DecidableEq, Repr

/-- The loop `for( ++it; it != pathList.cend(); ++it)` re-appending what was not consumed. -/
def reappend (path : Str) (rest : List Str) : Str :=
  rest.foldl (fun p it => p ++ (if p.length = 0 then it else ['/'] ++ it)) path

/-- The `for` loop of `canonicalPath` over the remaining `pathList`, `path` being the path
rebuilt so far. -/
def walk (win : Bool) (fs : FS) : Str → List Str → Walk
  | path, [] => Walk.done path
  | path, it :: rest =>
    if it.length = 0 then walk win fs path rest
    else if it = ['.'] then walk win fs path rest
    else if it = ['.', '.'] then walk win fs (getParent path) rest
    else
      let path := path ++ (if win then (if path.length = 0 then it else ['/'] ++ it)
                           else ['/'] ++ it)
      if isSymlink win fs path then
        let resolved := resolveSymlink win fs path
        if resolved.length = 0 then Walk.failed
        else
          let path := if isAbsolute win resolved then resolved
                      else getParent path ++ ['/'] ++ resolved
          Walk.spliced (reappend path rest)
      else walk win fs path rest

/-- The loop `while(scan)` of `canonicalPath`, run at most `fuel` times. -/
def scanLoop (win : Bool) (fs : FS) : Nat → Str → Option Str
  | 0, _ => none
  | fuel + 1, path =>
    match walk win fs [] (pathList path) with
    | Walk.done path => some path
    | Walk.failed => some []
    | Walk.spliced path => scanLoop win fs fuel path

/-- `canonicalPath(_path)`: `none` when `absolutePath` nests deeper than `fuel` or the scan
loop restarts more than `fuel` times. -/
def canonicalPath (win : Bool) (env : Env) (fs : FS) (fuel : Nat) (_path : Str) : Option Str :=
  (absolutePath win env fuel _path (defaultBase env)).bind (scanLoop win fs fuel)

/-! ## Properties of paths -/

/-- The generic form: no backslash and no two slashes in a row. -/
def IsGeneric (s : Str) : Prop := '\\' ∉ s ∧ ¬ (['/', '/'] <:+: s)

instance (s : Str) : Decidable (IsGeneric s) := by
  unfold IsGeneric
  infer_instance

/-- The generic form as the data model gives it: only `/` as separator, no `//`, and no
extended-length mark at the front. -/
def GenericForm (s : Str) : Prop :=
  '\\' ∉ s ∧ ¬ (['/', '/'] <:+: s) ∧ ¬ (extendedLengthMark <+: s)

/-! ## Concrete environments and filesystems used in the examples -/

/-- A process whose `getcwd` fails and whose environment variables are set and empty. -/
def envNoCwd : Env := ⟨none, fun _ => some []⟩

/-- A process running in `/cwd` whose environment variables are set and empty. -/
def envCwd : Env := ⟨some "/cwd".toList, fun _ => some []⟩

/-- A process running in `/cwd` with `HOME=/` and no other variable. -/
def envHomeRoot : Env :=
  ⟨some "/cwd".toList, fun name => if name = "HOME".toList then some ['/'] else none⟩

/-- A process running in `/cwd` with `HOME=/home/u` and no other variable. -/
def envHomeUser : Env :=
  ⟨some "/cwd".toList, fun name => if name = "HOME".toList then some "/home/u".toList else none⟩

/-- A process running in `/cwd` in which no environment variable is set. -/
def envNoHome : Env := ⟨some "/cwd".toList, fun _ => none⟩

/-- A process running in `C:\cwd` with `HOME` set and empty, `HOMEDRIVE=C:` and
`HOMEPATH=\Users\u`. -/
def envWinHome : Env :=
  ⟨some "C:\\cwd".toList, fun name =>
    if name = "HOME".toList then some []
    else if name = "HOMEDRIVE".toList then some "C:".toList
    else if name = "HOMEPATH".toList then some "\\Users\\u".toList
    else none⟩

/-- A filesystem on which every query fails: no file exists. -/
def emptyFS : FS :=
  { stat := fun _ => none
    lstat := fun _ => none
    readlink := fun _ => none
    getFileAttributes := fun _ => none
    createFile := fun _ => false
    getFinalPathNameByHandle := fun _ buf => (0, buf)
    opendir := fun _ => none
    findFiles := fun _ => none }

/-- A filesystem whose only file is the directory `/r`. -/
def dirFS : FS :=
  { emptyFS with
    stat := fun p => if p = "/r".toList then some ⟨FileType.directory, 0⟩ else none
    lstat := fun p => if p = "/r".toList then some ⟨FileType.directory, 0⟩ else none }

/-! ## The segment stack of the specification -/

/-- A list of pieces without a final empty piece: the source pushes the piece after the last
slash only when it is not empty. -/
def trimLast (l : List Str) : List Str :=
  if l.getLast? = some [] then l.dropLast else l

/-- One step of the segment stack as the specification describes it: an empty or `.` segment is
dropped, `..` removes the last kept segment (no effect when nothing is kept), every other
segment is kept. -/
def stackStep (stack : List Str) (seg : Str) : List Str :=
  if seg = [] ∨ seg = ['.'] then stack
  else if seg = ['.', '.'] then stack.dropLast
  else stack ++ [seg]

/-- The step of the segment stack as the code takes it: in the drive-letter branch a single
kept segment holds no slash, `getParent` leaves it alone, and `..` has no effect on it. -/
def stackStepOf (win : Bool) (stack : List Str) (seg : Str) : List Str :=
  if win = true ∧ seg = ['.', '.'] ∧ stack.length = 1 then stack else stackStep stack seg

/-- The path rebuilt from a segment stack: every segment preceded by a slash or, in the
drive-letter branch, the segments separated by slashes. -/
def rebuild (win : Bool) (stack : List Str) : Str :=
  ['/'].intercalate (if win then stack else [] :: stack)

/-- A filesystem without symbolic links: `isSymlink` is false for every path. -/
def NoSymlinks (win : Bool) (fs : FS) : Prop := ∀ q, isSymlink win fs q = false

/-- A path segment as the walk of `canonicalPath` appends it: not empty, without slash and
without backslash. -/
def IsSegment (s : Str) : Prop := s ≠ [] ∧ '/' ∉ s ∧ '\\' ∉ s

/-- A process running in `C:\cwd` whose environment variables are set and empty. -/
def envWin : Env := ⟨some "C:\\cwd".toList, fun _ => some []⟩

/-- The link `link` is a dangling symbolic link whose text `text` can be read: `lstat` sees a
link of that size, `readlink` gives the text, and `stat`, which follows the link, fails because
the target does not exist. -/
def DanglingLink (fs : FS) (link text : Str) : Prop :=
  fs.lstat link = some ⟨FileType.symlink, text.length⟩ ∧ fs.readlink link = some text ∧
    text ≠ [] ∧ fs.stat link = none

/-- A filesystem whose only file is the symbolic link `/l` with the text `nowhere`: the link is
dangling. -/
def danglingFS : FS :=
  { emptyFS with
    lstat := fun p => if p = "/l".toList then some ⟨FileType.symlink, 7⟩ else none
    readlink := fun p => if p = "/l".toList then some "nowhere".toList else none }

/-- The path after `path += ...` appended the segment `it` in the walk of `canonicalPath`. -/
def nextPath (win : Bool) (path it : Str) : Str :=
  path ++ (if win then (if path.length = 0 then it else ['/'] ++ it) else ['/'] ++ it)

/-- A file name: a segment other than `.` and `..`, without NUL character. -/
def IsName (d : Str) : Prop :=
  d ≠ [] ∧ d ≠ ['.'] ∧ d ≠ ['.', '.'] ∧ '/' ∉ d ∧ '\\' ∉ d ∧ NUL ∉ d

/-- The only symbolic link of `fs` is `link`, and its link text is `text`. -/
def OnlyLink (fs : FS) (link text : Str) : Prop :=
  fs.lstat link = some ⟨FileType.symlink, text.length⟩ ∧ fs.readlink link = some text ∧
    ∀ q info, fs.lstat q = some info → info.st_mode = FileType.symlink → q = link

/-- The number of segments other than `.` and `..`: each restart of the walk at a link whose
text is `..` lowers it. -/
def ordinary (segs : List Str) : Nat :=
  segs.countP (fun s => decide (s ≠ ['.'] ∧ s ≠ ['.', '.']))

/-- The directories `/a` and `/a/b` and the symbolic link `/a/b/l` with the text `..`. -/
def linkFS : FS :=
  { emptyFS with
    stat := fun p =>
      if p = "/a".toList ∨ p = "/a/b".toList ∨ p = "/a/b/l".toList then
        some ⟨FileType.directory, 0⟩
      else none
    lstat := fun p =>
      if p = "/a/b/l".toList then some ⟨FileType.symlink, 2⟩
      else if p = "/a".toList ∨ p = "/a/b".toList then some ⟨FileType.directory, 0⟩
      else none
    readlink := fun p => if p = "/a/b/l".toList then some ['.', '.'] else none }

/-! ## Stem, extension, hidden files, escaping -/

/-- `s.insert(pos, 1, c)`. -/
def insert (s : Str) (pos : Nat) (c : Char) : Str := s.take pos ++ c :: s.drop pos

/-- `getStem(_path)`; `fileName.erase(offset)` keeps the first `offset` characters. -/
def getStem (_path : Str) : Str :=
  let fileName := getFileName _path
  if fileName = ['.'] then fileName
  else
    match find_last_of '.' fileName with
    | some offset => fileName.take offset
    | none => fileName

/-- `getExtension(_path)`; `std::string(fileName, offset)` is the rest from `offset`. -/
def getExtension (_path : Str) : Str :=
  let fileName := getFileName _path
  if fileName = ['.'] then fileName
  else
    match find_last_of '.' fileName with
    | some offset => fileName.drop offset
    | none => ['.']

/-- Bit 1 (`0x2`) of the attribute word: `FILE_ATTRIBUTE_HIDDEN`. -/
def FILE_ATTRIBUTE_HIDDEN : Nat := 1

/-- `isHidden(_path)`, `win` choosing the `_WIN32` branch. -/
def isHidden (win : Bool) (fs : FS) (_path : Str) : Bool :=
  let path := genericPath _path
  let hiddenAttribute :=
    if win then
      match fs.getFileAttributes (cstr path) with
      | some attributes => attributes.testBit FILE_ATTRIBUTE_HIDDEN
      | none => false
    else false
  if hiddenAttribute then true
  else if charAt (getFileName path) 0 = '.' then true
  else false

/-- The characters of `invalidChars`: backslash, space, single quote (39), double quote (34),
`!$^&*()`, the two braces (123 and 125) and `[]?;<>`. -/
def invalidChars : List Char :=
  ['\\', ' ', Char.ofNat 39, Char.ofNat 34, '!', '$', '^', '&', '*', '(', ')', Char.ofNat 123,
    Char.ofNat 125, '[', ']', '?', ';', '<', '>']

/-- The inner loop of `escapedPath` for one character:
`while((offset = path.find(*invalidChar)) != npos) path.insert(offset, 1, '\\')`. -/
def insertLoop : Nat → Char → Str → Option Str
  | 0, _, _ => none
  | fuel + 1, invalidChar, path =>
    match find [invalidChar] path with
    | some offset => insertLoop fuel invalidChar (insert path offset '\\')
    | none => some path

/-- The outer loop of `escapedPath` over the characters of `invalidChars` that remain. -/
def escapeLoop (fuel : Nat) : List Char → Str → Option Str
  | [], path => some path
  | invalidChar :: rest, path => (insertLoop fuel invalidChar path).bind (escapeLoop fuel rest)

/-- `escapedPath(_path)`, `win` choosing the `_WIN32` branch; `none` when an inner loop runs
more than `fuel` times. -/
def escapedPath (win : Bool) (fuel : Nat) (_path : Str) : Option Str :=
  let path := genericPath _path
  if win then some ([Char.ofNat 34] ++ path ++ [Char.ofNat 34])
  else escapeLoop fuel invalidChars path

/-! ## Directory listing -/

/-- The `sort()` of `std::list<std::string>`: the list in ascending order of `operator<`, the
lexicographic order of the character codes.  The order is total, so the sorted list does not
depend on the sorting algorithm. -/
def sort (contentList : List Str) : List Str := contentList.insertionSort (· ≤ ·)

/-- `getDirContent(_path)`, `win` choosing the `_WIN32` branch.  The names the operating system
hands out are C strings. -/
def getDirContent (win : Bool) (fs : FS) (_path : Str) : List Str :=
  let path := genericPath _path
  let contentList : List Str :=
    if isDirectory fs path then
      match (if win then fs.findFiles (cstr (path ++ ['/', '*'])) else fs.opendir (cstr path)) with
      | some entries =>
        (entries.map cstr).filter (fun name => decide (name ≠ ['.'] ∧ name ≠ ['.', '.']))
      | none => []
    else []
  sort contentList

/-- A filesystem whose only file is the directory `/d` with the entries `.`, `..`, `b.txt`,
`a.txt` and `.hidden`, in the order in which `readdir` and `FindNextFile` yield them. -/
def listingFS : FS :=
  { emptyFS with
    stat := fun p => if p = "/d".toList then some ⟨FileType.directory, 0⟩ else none
    lstat := fun p => if p = "/d".toList then some ⟨FileType.directory, 0⟩ else none
    opendir := fun p =>
      if p = "/d".toList then
        some [".".toList, "..".toList, "b.txt".toList, "a.txt".toList, ".hidden".toList]
      else none
    findFiles := fun p =>
      if p = "/d/*".toList then
        some [".".toList, "..".toList, "b.txt".toList, "a.txt".toList, ".hidden".toList]
      else none }

/-! ## canonicalPath as a state machine -/

/-- The states of `canonicalPath`: walking over the segments not yet consumed with the path
rebuilt so far, having spliced a link target in, done, and failed. -/
inductive State where
  /-- The `for` loop stands before the segments `rest`, with `path` rebuilt so far. -/
  | WALKING (path : Str) (rest : List Str)
  /-- A link target was spliced in and `scan` is set: the path is split and walked again. -/
  | SPLICED (path : Str)
  /-- The walk ran to the end; `path` is returned. -/
  | DONE (path : Str)
  /-- A link could not be resolved; the empty string is returned. -/
  | FAILED
  deriving DecidableEq, Repr

/-- One step of `canonicalPath`: the walk consumes one segment, a splice restarts the walk on the
split of the new path, and the two final states stay. -/
def step (win : Bool) (fs : FS) : State → State
  | State.WALKING path [] => State.DONE path
  | State.WALKING path (it :: rest) =>
    if it.length = 0 then State.WALKING path rest
    else if it = ['.'] then State.WALKING path rest
    else if it = ['.', '.'] then State.WALKING (getParent path) rest
    else
      let path := path ++ (if win then (if path.length = 0 then it else ['/'] ++ it)
                           else ['/'] ++ it)
      if isSymlink win fs path then
        let resolved := resolveSymlink win fs path
        if resolved.length = 0 then State.FAILED
        else
          let path := if isAbsolute win resolved then resolved
                      else getParent path ++ ['/'] ++ resolved
          State.SPLICED (reappend path rest)
      else State.WALKING path rest
  | State.SPLICED path => State.WALKING [] (pathList path)
  | State.DONE path => State.DONE path
  | State.FAILED => State.FAILED

/-- The state after `n` steps. -/
def run (win : Bool) (fs : FS) (n : Nat) (s : State) : State := (step win fs)^[n] s

/-- The state in which a walk ends. -/
def endState : Walk → State
  | Walk.done path => State.DONE path
  | Walk.spliced path => State.SPLICED path
  | Walk.failed => State.FAILED

/-- The state is final: `DONE` or `FAILED`. -/
def State.isFinal : State → Bool
  | State.DONE _ => true
  | State.FAILED => true
  | _ => false

/-- The symbolic link `/l` whose text is `l`: the link points to itself. -/
def selfLinkFS : FS :=
  { emptyFS with
    lstat := fun p => if p = "/l".toList then some ⟨FileType.symlink, 1⟩ else none
    readlink := fun p => if p = "/l".toList then some ['l'] else none }

/-- The symbolic link `/l` whose text is `/l`: the link points to itself. -/
def selfLinkAbsFS : FS :=
  { emptyFS with
    lstat := fun p => if p = "/l".toList then some ⟨FileType.symlink, 2⟩ else none
    readlink := fun p => if p = "/l".toList then some ['/', 'l'] else none }

/-! ## Creating directories -/

/-- `exists(_path)`. -/
def «exists» (fs : FS) (_path : Str) : Bool :=
  let path := genericPath _path
  (fs.stat (cstr path)).isSome

theorem find_backslash_cons (c : Char) (rest : Str) :
    find ['\\'] (c :: rest) = if c = '\\' then some 0 else (find ['\\'] rest).map (· + 1) := by
  by_cases h : c = '\\'
  · subst h; simp [find]
  · have h2 : ¬ ('\\' = c) := fun e => h e.symm
    simp [find, h, h2]

theorem find_slashes_cons (c : Char) (rest : Str) :
    find ['/', '/'] (c :: rest) =
      if c = '/' ∧ rest.head? = some '/' then some 0 else (find ['/', '/'] rest).map (· + 1) := by
  cases rest with
  | nil => simp [find]
  | cons d r =>
    by_cases h : c = '/' <;> by_cases h2 : d = '/'
    · subst h; subst h2; simp [find]
    · have h3 : ¬ ('/' = d) := fun e => h2 e.symm
      subst h; simp [find, h2, h3]
    · have h3 : ¬ ('/' = c) := fun e => h e.symm
      subst h2; simp [find, h, h3]
    · have h3 : ¬ ('/' = c) := fun e => h e.symm
      simp [find, h, h3]

theorem find_backslash_nil : find ['\\'] [] = none := by simp [find]

theorem find_slashes_nil : find ['/', '/'] [] = none := by simp [find]

theorem erase_cons_succ (c : Char) (rest : Str) (i n : Nat) :
    erase (c :: rest) (i + 1) n = c :: erase rest i n := by
  simp [erase, Nat.add_right_comm]

theorem replace_cons_succ (c : Char) (rest : Str) (i n : Nat) (t : Str) :
    replace (c :: rest) (i + 1) n t = c :: replace rest i n t := by
  simp [replace, Nat.add_right_comm]

theorem map_toSlash_of_find_none (s : Str) (h : find ['\\'] s = none) : s.map toSlash = s := by
  induction s with
  | nil => rfl
  | cons c rest ih =>
    rw [find_backslash_cons] at h
    by_cases hc : c = '\\'
    · simp [hc] at h
    · simp [hc] at h
      simp [toSlash, hc, ih h]

theorem backslash_step (s : Str) (off : Nat) (h : find ['\\'] s = some off) :
    (replace s off 1 ['/']).map toSlash = s.map toSlash ∧
      (replace s off 1 ['/']).count '\\' < s.count '\\' := by
  induction s generalizing off with
  | nil => simp [find_backslash_nil] at h
  | cons c rest ih =>
    rw [find_backslash_cons] at h
    by_cases hc : c = '\\'
    · simp [hc] at h
      subst h; subst hc
      simp [replace, toSlash]
    · simp [hc] at h
      obtain ⟨a, ha, rfl⟩ := h
      have := ih a ha
      rw [replace_cons_succ]
      have hc2 : ¬ (c == '\\') = true := by simpa using hc
      simp [this.1, List.count_cons, hc2, this.2]

theorem backslashLoop_eq (fuel : Nat) (s : Str) (h : s.count '\\' < fuel) :
    backslashLoop fuel s = some (s.map toSlash) := by
  induction fuel generalizing s with
  | zero => omega
  | succ n ih =>
    unfold backslashLoop
    cases hf : find ['\\'] s with
    | none => simp [map_toSlash_of_find_none s hf]
    | some off =>
      have := backslash_step s off hf
      simp only
      rw [ih _ (by omega), this.1]


theorem collapse_of_find_none (s : Str) (h : find ['/', '/'] s = none) : collapse s = s := by
  induction s with
  | nil => rfl
  | cons c rest ih =>
    rw [find_slashes_cons] at h
    by_cases hc : c = '/' ∧ rest.head? = some '/'
    · simp [hc] at h
    · rw [if_neg hc] at h
      simp at h
      simp [collapse, hc, ih h]

theorem slashes_step (s : Str) (off : Nat) (h : find ['/', '/'] s = some off) :
    collapse (erase s off 1) = collapse s ∧ (erase s off 1).length < s.length ∧
      (erase s off 1).head? = s.head? := by
  induction s generalizing off with
  | nil => simp [find_slashes_nil] at h
  | cons c rest ih =>
    rw [find_slashes_cons] at h
    by_cases hc : c = '/' ∧ rest.head? = some '/'
    · rw [if_pos hc] at h
      simp at h
      subst h
      obtain ⟨h1, h2⟩ := hc
      subst h1
      cases rest with
      | nil => simp at h2
      | cons d r =>
        simp at h2
        subst h2
        simp [erase, collapse]
    · rw [if_neg hc] at h
      simp at h
      obtain ⟨a, ha, rfl⟩ := h
      obtain ⟨h1, h2, h3⟩ := ih a ha
      rw [erase_cons_succ]
      refine ⟨?_, by simpa using h2, rfl⟩
      simp only [collapse, h1, h3]

theorem doubleSlashLoop_eq (fuel : Nat) (s : Str) (h : s.length < fuel) :
    doubleSlashLoop fuel s = some (collapse s) := by
  induction fuel generalizing s with
  | zero => omega
  | succ n ih =>
    unfold doubleSlashLoop
    cases hf : find ['/', '/'] s with
    | none => simp [collapse_of_find_none s hf]
    | some off =>
      have := slashes_step s off hf
      simp only
      rw [ih _ (by omega), this.1]

theorem stripMark_length_le (p : Str) : (stripMark p).length ≤ p.length := by
  unfold stripMark
  split
  · simp [erase]
  · exact le_refl _

/-- Enough fuel: with more than `_path.size()` rounds both loops of `genericPath` exit, and the
result is the closed form. -/
theorem genericPathFuel_eq (fuel : Nat) (p : Str) (h : p.length < fuel) :
    genericPathFuel fuel p = some (collapse ((stripMark p).map toSlash)) := by
  have h1 : (stripMark p).length ≤ p.length := stripMark_length_le p
  have h2 : (stripMark p).count '\\' ≤ (stripMark p).length := List.count_le_length _ _
  show (backslashLoop fuel (stripMark p)).bind (doubleSlashLoop fuel) = _
  rw [backslashLoop_eq fuel _ (by omega)]
  simp only [Option.some_bind]
  rw [doubleSlashLoop_eq fuel _ (by simp; omega)]

theorem genericPath_eq (p : Str) : genericPath p = collapse ((stripMark p).map toSlash) := by
  unfold genericPath
  rw [genericPathFuel_eq _ p (Nat.lt_succ_self _)]
  rfl

/-! ### The generic form -/

theorem find_eq_none_iff (pat s : Str) : find pat s = none ↔ ¬ (pat <:+: s) := by
  induction s with
  | nil =>
    cases pat with
    | nil => simp [find]
    | cons a l => simp [find, List.isPrefixOf]
  | cons c rest ih =>
    unfold find
    by_cases h : pat.isPrefixOf (c :: rest) = true
    · have h2 : pat <+: c :: rest := List.isPrefixOf_iff_prefix.mp h
      simp [h, h2.isInfix]
    · have h2 : ¬ (pat <+: c :: rest) := fun e => h (List.isPrefixOf_iff_prefix.mpr e)
      simp only [h, if_false, Option.map_eq_none', ih, List.infix_cons_iff, h2, false_or,
        Bool.false_eq_true]

theorem find_eq_zero_iff (pat s : Str) : find pat s = some 0 ↔ pat.isPrefixOf s = true := by
  cases s with
  | nil =>
    unfold find
    by_cases h : pat.isPrefixOf [] = true <;> simp [h]
  | cons c rest =>
    unfold find
    by_cases h : pat.isPrefixOf (c :: rest) = true <;> simp [h]

theorem find_backslash_none_iff (s : Str) : find ['\\'] s = none ↔ '\\' ∉ s := by
  induction s with
  | nil => simp [find_backslash_nil]
  | cons c rest ih =>
    rw [find_backslash_cons]
    by_cases hc : c = '\\'
    · simp [hc]
    · have hc2 : ¬ ('\\' = c) := fun e => hc e.symm
      simp [hc, hc2, ih]

theorem isGeneric_iff (s : Str) :
    IsGeneric s ↔ find ['\\'] s = none ∧ find ['/', '/'] s = none := by
  unfold IsGeneric
  rw [find_backslash_none_iff, find_eq_none_iff]

theorem stripMark_of_not_mem (s : Str) (h : '\\' ∉ s) : stripMark s = s := by
  unfold stripMark
  rw [if_neg]
  rw [find_eq_zero_iff]
  intro hp
  have hp2 : extendedLengthMark <+: s := List.isPrefixOf_iff_prefix.mp hp
  exact h (hp2.subset (by simp [extendedLengthMark]))

theorem toSlash_ne_backslash (c : Char) : toSlash c ≠ '\\' := by
  unfold toSlash
  split
  · decide
  · assumption

theorem not_mem_map_toSlash (s : Str) : '\\' ∉ s.map toSlash := by
  intro h
  obtain ⟨c, _, hc⟩ := List.mem_map.mp h
  exact toSlash_ne_backslash c hc

theorem collapse_sublist (s : Str) : (collapse s).Sublist s := by
  induction s with
  | nil => exact List.Sublist.refl _
  | cons c rest ih =>
    unfold collapse
    split
    · exact ih.trans (List.sublist_cons_self _ _)
    · exact ih.cons₂ c

theorem collapse_head (s : Str) : (collapse s).head? = s.head? := by
  induction s with
  | nil => rfl
  | cons c rest ih =>
    unfold collapse
    split
    · rename_i h
      rw [ih, h.2, h.1]
      rfl
    · rfl

theorem find_slashes_collapse (s : Str) : find ['/', '/'] (collapse s) = none := by
  induction s with
  | nil => exact find_slashes_nil
  | cons c rest ih =>
    unfold collapse
    split
    · exact ih
    · rename_i h
      rw [find_slashes_cons, collapse_head, if_neg h, ih]
      rfl

theorem collapse_map_isGeneric (s : Str) : IsGeneric (collapse (s.map toSlash)) := by
  rw [isGeneric_iff, find_backslash_none_iff]
  exact ⟨fun h => not_mem_map_toSlash s ((collapse_sublist _).subset h), find_slashes_collapse _⟩

theorem genericPath_isGeneric (p : Str) : IsGeneric (genericPath p) := by
  rw [genericPath_eq]
  exact collapse_map_isGeneric _

theorem genericPath_of_isGeneric (s : Str) (h : IsGeneric s) : genericPath s = s := by
  have h2 := (isGeneric_iff s).mp h
  rw [genericPath_eq, stripMark_of_not_mem s h.1, map_toSlash_of_find_none s h2.1,
    collapse_of_find_none s h2.2]

theorem genericPath_idem (p : Str) : genericPath (genericPath p) = genericPath p :=
  genericPath_of_isGeneric _ (genericPath_isGeneric p)

/-! ### C1 -/

/-- C1: `genericPath` is idempotent: for every string `p`,
`genericPath(genericPath(p)) = genericPath(p)`. -/
theorem genericPath_idempotent (p : Str) : genericPath (genericPath p) = genericPath p := by
  have h := genericPath_isGeneric p
  exact genericPath_of_isGeneric (genericPath p) h

/-! ### C2 -/

theorem IsGeneric.genericForm {s : Str} (h : IsGeneric s) : GenericForm s := by
  refine ⟨h.1, h.2, fun hp => h.1 (hp.subset ?_)⟩
  simp [extendedLengthMark]

theorem isGeneric_of_part {s t : Str} (h : IsGeneric s) (ht : t <:+: s) : IsGeneric t :=
  ⟨fun hm => h.1 (ht.subset hm), fun hi => h.2 (hi.trans ht)⟩

theorem isGeneric_dot : IsGeneric ['.'] := by decide

theorem isGeneric_nil : IsGeneric [] := by decide

theorem getParent_isGeneric (p : Str) : IsGeneric (getParent p) := by
  unfold getParent
  simp only
  split
  · exact isGeneric_of_part (genericPath_isGeneric p) ( List.take_prefix _ _).isInfix
  · exact genericPath_isGeneric p

theorem getFileName_isGeneric (p : Str) : IsGeneric (getFileName p) := by
  unfold getFileName
  simp only
  split
  · split
    · exact isGeneric_dot
    · exact isGeneric_of_part (genericPath_isGeneric p) (List.drop_suffix _ _).isInfix
  · exact genericPath_isGeneric p

theorem absolutePath_succ (win : Bool) (env : Env) (fuel : Nat) (p base : Str) :
    absolutePath win env (fuel + 1) p base =
      (if isAbsolute win base then some (genericPath base)
        else absolutePath win env fuel base (getCWDPath env)).map
        (fun b => if isAbsolute win (genericPath p) then genericPath p
          else genericPath (b ++ ['/'] ++ genericPath p)) := by
  rw [absolutePath]
  unfold defaultBase
  split <;> simp_all

theorem absolutePath_isGeneric (win : Bool) (env : Env) (fuel : Nat) (p base r : Str)
    (h : absolutePath win env fuel p base = some r) : IsGeneric r := by
  cases fuel with
  | zero => simp [absolutePath] at h
  | succ n =>
    rw [absolutePath_succ] at h
    obtain ⟨b, _, hb⟩ := Option.map_eq_some'.mp h
    rw [← hb]
    split
    · exact genericPath_isGeneric p
    · exact genericPath_isGeneric _

theorem resolvePath_isGeneric (win : Bool) (env : Env) (fs : FS) (cached p relativeTo r : Str)
    (allowHome : Bool) (h : resolvePath win env fs cached p relativeTo allowHome = some r) :
    IsGeneric r := by
  unfold resolvePath at h
  simp only at h
  split at h
  · rw [← Option.some.inj h]; exact genericPath_isGeneric p
  · split at h
    · rw [← Option.some.inj h]; exact genericPath_isGeneric _
    · split at h
      · split at h
        · exact absurd h (by simp)
        · rw [← Option.some.inj h]; exact genericPath_isGeneric _
      · rw [← Option.some.inj h]; exact genericPath_isGeneric p

theorem resolvePath_isSome (win : Bool) (env : Env) (fs : FS) (cached p relativeTo : Str)
    (allowHome : Bool) (h : (getHomePath win env cached).isSome = true) :
    (resolvePath win env fs cached p relativeTo allowHome).isSome = true := by
  obtain ⟨homePath, hh⟩ := Option.isSome_iff_exists.mp h
  unfold resolvePath
  simp only [hh]
  repeat (first | rfl | split)

/-- C2: generic-form invariant.  For every input, the strings returned by `genericPath`,
`getParent`, `getFileName`, `absolutePath` (whenever the call returns, whatever the nesting
bound) and `resolvePath` (whenever the call returns, which it does when `getHomePath` does)
hold no backslash, no two slashes in a row and no extended-length mark at the front; and
`genericPath` terminates: run with more rounds than the input has characters, both of its loops
exit and give the value of `genericPath`. -/
theorem generic_form_invariant (win : Bool) (env : Env) (fs : FS) (cached p base relativeTo : Str)
    (allowHome : Bool) :
    GenericForm (genericPath p) ∧
    (∀ fuel, p.length < fuel → genericPathFuel fuel p = some (genericPath p)) ∧
    GenericForm (getParent p) ∧
    GenericForm (getFileName p) ∧
    (∀ fuel r, absolutePath win env fuel p base = some r → GenericForm r) ∧
    (∀ r, resolvePath win env fs cached p relativeTo allowHome = some r → GenericForm r) ∧
    ((getHomePath win env cached).isSome = true →
      (resolvePath win env fs cached p relativeTo allowHome).isSome = true) := by
  refine ⟨(genericPath_isGeneric p).genericForm, ?_, (getParent_isGeneric p).genericForm,
    (getFileName_isGeneric p).genericForm, ?_,
    fun r h => (resolvePath_isGeneric win env fs cached p relativeTo r allowHome h).genericForm,
    resolvePath_isSome win env fs cached p relativeTo allowHome⟩
  · intro fuel hf
    rw [genericPathFuel_eq fuel p hf, genericPath_eq]
  · intro fuel r h
    exact (absolutePath_isGeneric win env fuel p base r h).genericForm

/-- C2 at a concrete input: in `/cwd`, `absolutePath("a\\\\b", "rel")` returns `/cwd/rel/a/b`,
which is in generic form. -/
theorem generic_form_invariant_witness :
    absolutePath false envCwd 2 "a\\\\b".toList "rel".toList = some "/cwd/rel/a/b".toList ∧
      GenericForm "/cwd/rel/a/b".toList :=
  ⟨by rfl, (generic_form_invariant false envCwd emptyFS [] "a\\\\b".toList "rel".toList []
    true).2.2.2.2.1 2 _ (by rfl)⟩

/-! ### isAbsolute and absolutePath -/

theorem isAbsolute_genericPath (win : Bool) (p : Str) :
    isAbsolute win (genericPath p) = isAbsolute win p := by
  unfold isAbsolute
  rw [genericPath_idem]

theorem collapse_eq_nil_iff (s : Str) : collapse s = [] ↔ s = [] := by
  constructor
  · intro h
    have := collapse_head s
    rw [h] at this
    cases s with
    | nil => rfl
    | cons c r => simp at this
  · intro h
    subst h
    rfl

theorem collapse_append_head (r z : Str) : (collapse r ++ z).head? = (r ++ z).head? := by
  cases r with
  | nil => rfl
  | cons c r' =>
    have h1 : collapse (c :: r') ≠ [] := fun h => by
      have := (collapse_eq_nil_iff _).mp h
      simp at this
    have h2 := collapse_head (c :: r')
    cases hc : collapse (c :: r') with
    | nil => exact absurd hc h1
    | cons d t =>
      rw [hc] at h2
      simpa using h2

theorem collapse_cons_congr (c : Char) (a b : Str) (hh : a.head? = b.head?)
    (h : collapse a = collapse b) : collapse (c :: a) = collapse (c :: b) := by
  simp only [collapse, hh, h]

theorem collapse_append_left (x z : Str) : collapse (collapse x ++ z) = collapse (x ++ z) := by
  induction x with
  | nil => rfl
  | cons c r ih =>
    by_cases h : c = '/' ∧ r.head? = some '/'
    · have h1 : collapse (c :: r) = collapse r := by simp [collapse, h]
      have h2 : ((r ++ z).head? = some '/') := by
        cases r with
        | nil => simp at h
        | cons d t => simpa using h.2
      rw [h1, ih, List.cons_append]
      conv_rhs => rw [collapse]
      rw [if_pos ⟨h.1, h2⟩]
    · have h1 : collapse (c :: r) = c :: collapse r := by simp only [collapse, if_neg h]
      rw [h1, List.cons_append, List.cons_append]
      exact collapse_cons_congr c _ _ (collapse_append_head r z) ih

theorem collapse_idem (s : Str) : collapse (collapse s) = collapse s :=
  collapse_of_find_none _ (find_slashes_collapse s)

theorem append_collapse_head (r z : Str) : (r ++ collapse z).head? = (r ++ z).head? := by
  cases r with
  | nil => simpa using collapse_head z
  | cons c r' => rfl

theorem collapse_append_right (x z : Str) : collapse (x ++ collapse z) = collapse (x ++ z) := by
  induction x with
  | nil => exact collapse_idem z
  | cons c r ih =>
    rw [List.cons_append, List.cons_append]
    exact collapse_cons_congr c _ _ (append_collapse_head r z) ih

theorem genericPath_of_not_mark (s : Str) (h : extendedLengthMark.isPrefixOf s = false) :
    genericPath s = collapse (s.map toSlash) := by
  rw [genericPath_eq]
  unfold stripMark
  rw [if_neg]
  rw [find_eq_zero_iff, h]
  simp

theorem mark_isPrefixOf_false_of_head {s : Str} {c : Char} (h : s.head? = some c)
    (hc : c ≠ '\\') : extendedLengthMark.isPrefixOf s = false := by
  cases s with
  | nil => simp at h
  | cons d r =>
    simp at h
    subst h
    have : ¬ ('\\' = d) := fun e => hc e.symm
    simp [extendedLengthMark, List.isPrefixOf, this]

/-- The path `b ++ "/" ++ x` made generic keeps the first characters that make a generic `b`
absolute. -/
theorem isAbsolute_genericPath_append (win : Bool) (b x : Str) (hg : IsGeneric b)
    (hb : isAbsolute win b = true) : isAbsolute win (genericPath (b ++ ['/'] ++ x)) = true := by
  have hbg : genericPath b = b := genericPath_of_isGeneric b hg
  unfold isAbsolute at hb ⊢
  rw [genericPath_idem]
  rw [hbg] at hb
  cases win with
  | false =>
    simp only [Bool.false_eq_true, if_false] at hb ⊢
    cases b with
    | nil => simp at hb
    | cons c r =>
      simp [charAt] at hb
      subst hb
      have hm : extendedLengthMark.isPrefixOf ('/' :: r ++ ['/'] ++ x) = false := by
        simp [extendedLengthMark, List.isPrefixOf]
      rw [genericPath_of_not_mark _ hm]
      have hh := collapse_head (('/' :: r ++ ['/'] ++ x).map toSlash)
      cases hc : collapse (('/' :: r ++ ['/'] ++ x).map toSlash) with
      | nil => rw [hc] at hh; simp at hh
      | cons d t =>
        rw [hc] at hh
        simp [toSlash] at hh
        simp [charAt, hh]
  | true =>
    simp only [if_true] at hb ⊢
    match b, hb, hg with
    | [], hb, _ => simp at hb
    | [_], hb, _ => simp at hb
    | c :: d :: r, hb, hg =>
      simp [charAt] at hb
      subst hb
      have hc : c ≠ '\\' := fun e => hg.1 (by simp [e])
      have hm : extendedLengthMark.isPrefixOf (c :: ':' :: r ++ ['/'] ++ x) = false :=
        mark_isPrefixOf_false_of_head rfl hc
      rw [genericPath_of_not_mark _ hm]
      have e1 : toSlash c = c := by simp [toSlash, hc]
      have e2 : toSlash ':' = ':' := by decide
      have e3 : collapse ((c :: ':' :: r ++ ['/'] ++ x).map toSlash) =
          c :: ':' :: collapse ((r ++ ['/'] ++ x).map toSlash) := by
        simp [collapse, e1, e2]
      rw [e3]
      simp [charAt]

theorem absolutePath_isAbsolute_of_some (win : Bool) (env : Env) (fuel : Nat) (p base r : Str)
    (h : absolutePath win env fuel p base = some r) : isAbsolute win r = true := by
  induction fuel generalizing p base r with
  | zero => simp [absolutePath] at h
  | succ n ih =>
    rw [absolutePath_succ] at h
    obtain ⟨b, hb, hr⟩ := Option.map_eq_some'.mp h
    have hbabs : isAbsolute win b = true ∧ IsGeneric b := by
      by_cases hbase : isAbsolute win base = true
      · rw [if_pos hbase] at hb
        simp at hb
        subst hb
        exact ⟨by rw [isAbsolute_genericPath]; exact hbase, genericPath_isGeneric base⟩
      · rw [if_neg hbase] at hb
        exact ⟨ih _ _ _ hb, absolutePath_isGeneric _ _ _ _ _ _ hb⟩
    rw [← hr]
    by_cases hp : isAbsolute win (genericPath p) = true
    · rw [if_pos hp]; exact hp
    · rw [if_neg hp]
      exact isAbsolute_genericPath_append win b _ hbabs.2 hbabs.1

theorem absolutePath_of_absolute_base (win : Bool) (env : Env) (fuel : Nat) (p base : Str)
    (hb : isAbsolute win base = true) :
    absolutePath win env (fuel + 1) p base =
      some (if isAbsolute win p then genericPath p
        else genericPath (genericPath base ++ ['/'] ++ genericPath p)) := by
  rw [absolutePath_succ, if_pos hb, isAbsolute_genericPath]
  rfl

theorem absolutePath_of_relative_base (win : Bool) (env : Env) (fuel : Nat) (p base : Str)
    (hb : isAbsolute win base = false) (hc : isAbsolute win (getCWDPath env) = true) :
    absolutePath win env (fuel + 2) p base =
      some (if isAbsolute win p then genericPath p
        else genericPath (genericPath (genericPath (getCWDPath env) ++ ['/'] ++ genericPath base)
          ++ ['/'] ++ genericPath p)) := by
  rw [absolutePath_succ, absolutePath_of_absolute_base win env fuel base _ hc,
    isAbsolute_genericPath]
  simp [hb]

theorem absolutePath_none_of_relative (win : Bool) (env : Env) (fuel : Nat) (p base : Str)
    (hb : isAbsolute win base = false) (hc : isAbsolute win (getCWDPath env) = false) :
    absolutePath win env fuel p base = none := by
  induction fuel generalizing p base with
  | zero => rfl
  | succ n ih =>
    rw [absolutePath_succ]
    simp [hb, ih base (getCWDPath env) hc]

theorem mark_isPrefixOf_append_slash (a b : Str) :
    extendedLengthMark.isPrefixOf (a ++ '/' :: b) = extendedLengthMark.isPrefixOf a := by
  have n1 : ¬ ('\\' = '/') := by decide
  have n2 : ¬ ('?' = '/') := by decide
  match a with
  | [] => simp [extendedLengthMark, List.isPrefixOf, n1]
  | [c1] => simp [extendedLengthMark, List.isPrefixOf, n1]
  | [c1, c2] => simp [extendedLengthMark, List.isPrefixOf, n2]
  | [c1, c2, c3] => simp [extendedLengthMark, List.isPrefixOf, n1]
  | c1 :: c2 :: c3 :: c4 :: r => simp [extendedLengthMark, List.isPrefixOf]

theorem stripMark_append_slash (a b : Str) :
    stripMark (a ++ '/' :: b) = stripMark a ++ '/' :: b := by
  unfold stripMark
  by_cases h : extendedLengthMark.isPrefixOf a = true
  · have h1 : find extendedLengthMark a = some 0 := (find_eq_zero_iff _ _).mpr h
    have h2 : find extendedLengthMark (a ++ '/' :: b) = some 0 :=
      (find_eq_zero_iff _ _).mpr (by rw [mark_isPrefixOf_append_slash]; exact h)
    rw [if_pos h1, if_pos h2]
    have hp : extendedLengthMark <+: a := List.isPrefixOf_iff_prefix.mp h
    obtain ⟨t, rfl⟩ := hp
    simp [erase, extendedLengthMark]
  · have h1 : ¬ find extendedLengthMark a = some 0 := fun e => h ((find_eq_zero_iff _ _).mp e)
    have h2 : ¬ find extendedLengthMark (a ++ '/' :: b) = some 0 := fun e =>
      h (by rw [← mark_isPrefixOf_append_slash a b]; exact (find_eq_zero_iff _ _).mp e)
    rw [if_neg h1, if_neg h2]

theorem map_toSlash_of_not_mem (s : Str) (h : '\\' ∉ s) : s.map toSlash = s :=
  map_toSlash_of_find_none s ((find_backslash_none_iff s).mpr h)

theorem genericPath_of_not_mem (s : Str) (h : '\\' ∉ s) : genericPath s = collapse s := by
  rw [genericPath_eq, stripMark_of_not_mem s h, map_toSlash_of_not_mem s h]

/-- Joining two paths with a slash and normalising: the parts may be normalised first, as long
as the second part carries no extended-length mark (which would be dropped only there). -/
theorem genericPath_join (a b : Str) (hb : extendedLengthMark.isPrefixOf b = false) :
    genericPath (genericPath a ++ ['/'] ++ genericPath b) = genericPath (a ++ ['/'] ++ b) := by
  have hna : '\\' ∉ genericPath a := (genericPath_isGeneric a).1
  have hnb : '\\' ∉ genericPath b := (genericPath_isGeneric b).1
  have hn : '\\' ∉ genericPath a ++ ['/'] ++ genericPath b := by
    simp only [List.mem_append, List.mem_singleton, not_or]
    exact ⟨⟨hna, by decide⟩, hnb⟩
  rw [genericPath_of_not_mem _ hn, genericPath_eq a, genericPath_of_not_mark b hb]
  rw [List.append_assoc, collapse_append_left, ← List.append_assoc, collapse_append_right]
  rw [genericPath_eq (a ++ ['/'] ++ b)]
  have : a ++ ['/'] ++ b = a ++ '/' :: b := by simp
  have e : toSlash '/' = '/' := by decide
  rw [this, stripMark_append_slash]
  simp [e]

/-! ### C7 -/

/-- C7 (amended): whenever `absolutePath(p, base)` returns, its result is absolute; it returns
(one nested call is enough) when `base` is absolute or the current-working-directory query
yields an absolute path, and it never returns when both are relative. -/
theorem absolutePath_is_absolute (win : Bool) (env : Env) (p base : Str) :
    (∀ fuel r, absolutePath win env fuel p base = some r → isAbsolute win r = true) ∧
    (isAbsolute win base = true ∨ isAbsolute win (getCWDPath env) = true →
      ∀ fuel, 2 ≤ fuel → ∃ r, absolutePath win env fuel p base = some r ∧
        isAbsolute win r = true) ∧
    (isAbsolute win base = false → isAbsolute win (getCWDPath env) = false →
      ∀ fuel, absolutePath win env fuel p base = none) := by
  refine ⟨fun fuel r h => absolutePath_isAbsolute_of_some win env fuel p base r h, ?_, ?_⟩
  · intro h fuel hf
    obtain ⟨n, rfl⟩ : ∃ n, fuel = n + 2 := ⟨fuel - 2, by omega⟩
    by_cases hb : isAbsolute win base = true
    · have e := absolutePath_of_absolute_base win env (n + 1) p base hb
      exact ⟨_, e, absolutePath_isAbsolute_of_some win env _ p base _ e⟩
    · have hb2 : isAbsolute win base = false := by simpa using hb
      have hc : isAbsolute win (getCWDPath env) = true := by
        rcases h with h | h
        · exact absurd h hb
        · exact h
      have e := absolutePath_of_relative_base win env n p base hb2 hc
      exact ⟨_, e, absolutePath_isAbsolute_of_some win env _ p base _ e⟩
  · intro hb hc fuel
    exact absolutePath_none_of_relative win env fuel p base hb hc

/-- C7, as stated, fails: with a failing `getcwd` and the relative base `rel`, no nesting bound
lets `absolutePath("x", "rel")` return, so there is no result that could be absolute. -/
theorem absolutePath_is_absolute_counterexample :
    ¬ ∃ fuel r, absolutePath false envNoCwd fuel "x".toList "rel".toList = some r ∧
      isAbsolute false r = true := by
  rintro ⟨fuel, r, h, _⟩
  rw [absolutePath_none_of_relative false envNoCwd fuel _ _ (by decide) (by decide)] at h
  exact Option.noConfusion h

/-- C7 at a concrete input: in `/cwd`, `absolutePath("x", "rel")` is `/cwd/rel/x`, an absolute
path. -/
theorem absolutePath_is_absolute_witness :
    absolutePath false envCwd 2 "x".toList "rel".toList = some "/cwd/rel/x".toList ∧
      isAbsolute false "/cwd/rel/x".toList = true :=
  ⟨by rfl, (absolutePath_is_absolute false envCwd "x".toList "rel".toList).1 2 _ (by rfl)⟩

/-! ### C8 -/

/-- C8 (amended): whenever `absolutePath(path, base)` returns `r`: if `path` is absolute then
`r = genericPath(path)`; otherwise `r = genericPath(B + "/" + genericPath(path))`, where `B` is
`genericPath(base)` for an absolute `base` and the result of `absolutePath(base)` (against the
working directory) for a relative one.  For an absolute `base` and a `path` without the
extended-length mark this is `genericPath(base + "/" + path)`. -/
theorem absolutePath_value (win : Bool) (env : Env) (fuel : Nat) (p base r : Str)
    (h : absolutePath win env fuel p base = some r) :
    (isAbsolute win p = true → r = genericPath p) ∧
    (isAbsolute win p = false → isAbsolute win base = true →
      r = genericPath (genericPath base ++ ['/'] ++ genericPath p) ∧
      (extendedLengthMark.isPrefixOf p = false → r = genericPath (base ++ ['/'] ++ p))) ∧
    (isAbsolute win p = false → isAbsolute win base = false →
      ∃ b, absolutePath win env (fuel - 1) base (getCWDPath env) = some b ∧
        r = genericPath (b ++ ['/'] ++ genericPath p)) := by
  cases fuel with
  | zero => simp [absolutePath] at h
  | succ n =>
    rw [absolutePath_succ, isAbsolute_genericPath] at h
    obtain ⟨b, hb, hr⟩ := Option.map_eq_some'.mp h
    refine ⟨fun hp => ?_, fun hp hbase => ?_, fun hp hbase => ?_⟩
    · rw [← hr, if_pos hp]
    · rw [if_pos hbase] at hb
      simp at hb
      subst hb
      have e : r = genericPath (genericPath base ++ ['/'] ++ genericPath p) := by
        rw [← hr]; simp [hp]
      exact ⟨e, fun hm => by rw [e, genericPath_join base p hm]⟩
    · rw [hbase] at hb
      simp only [Bool.false_eq_true, if_false] at hb
      refine ⟨b, by simpa using hb, ?_⟩
      rw [← hr]; simp [hp]

/-- C8, as stated, fails for a relative base: in `/cwd`, `absolutePath("x", "rel")` is
`/cwd/rel/x`, while `genericPath("rel" + "/" + "x")` is `rel/x`. -/
theorem absolutePath_value_counterexample :
    isAbsolute false "x".toList = false ∧
    absolutePath false envCwd 2 "x".toList "rel".toList = some "/cwd/rel/x".toList ∧
    genericPath ("rel".toList ++ ['/'] ++ "x".toList) = "rel/x".toList ∧
    "/cwd/rel/x".toList ≠ "rel/x".toList := by
  refine ⟨by rfl, by rfl, by rfl, by decide⟩

/-- C8 at a concrete input: `absolutePath("x", "/b")` is `genericPath("/b" + "/" + "x")`. -/
theorem absolutePath_value_witness :
    absolutePath false envCwd 1 "x".toList "/b".toList = some "/b/x".toList ∧
      "/b/x".toList = genericPath ("/b".toList ++ ['/'] ++ "x".toList) :=
  ⟨by rfl, ((absolutePath_value false envCwd 1 "x".toList "/b".toList "/b/x".toList
    (by rfl)).2.1 (by rfl) (by rfl)).2 (by rfl)⟩

/-! ### Slashes at a seam -/

theorem find_slashes_append (a b : Str) :
    find ['/', '/'] (a ++ b) = none ↔
      find ['/', '/'] a = none ∧ find ['/', '/'] b = none ∧
        ¬ (a.getLast? = some '/' ∧ b.head? = some '/') := by
  induction a with
  | nil => simp [find_slashes_nil]
  | cons c r ih =>
    rw [List.cons_append, find_slashes_cons, find_slashes_cons]
    cases r with
    | nil =>
      by_cases hc : c = '/'
      · by_cases hb : b.head? = some '/'
        · simp [hc, hb]
        · simp [hc, hb, find_slashes_nil]
      · simp [hc, find_slashes_nil]
    | cons d t =>
      have hl : (c :: d :: t).getLast? = (d :: t).getLast? := by
        simp [List.getLast?_cons_cons]
      rw [hl]
      by_cases hcd : c = '/' ∧ d = '/'
      · simp [hcd]
      · have h1 : ¬ (c = '/' ∧ (d :: t ++ b).head? = some '/') := by simpa using hcd
        have h2 : ¬ (c = '/' ∧ (d :: t).head? = some '/') := by simpa using hcd
        rw [if_neg h1, if_neg h2]
        simp only [Option.map_eq_none']
        exact ih

theorem isGeneric_append {a b : Str} (ha : IsGeneric a) (hb : IsGeneric b)
    (h : ¬ (a.getLast? = some '/' ∧ b.head? = some '/')) : IsGeneric (a ++ b) := by
  rw [isGeneric_iff] at ha hb ⊢
  refine ⟨?_, (find_slashes_append a b).mpr ⟨ha.2, hb.2, h⟩⟩
  rw [find_backslash_none_iff] at ha hb ⊢
  simp only [List.mem_append, not_or]
  exact ⟨ha.1, hb.1⟩

theorem collapse_of_isGeneric {s : Str} (h : IsGeneric s) : collapse s = s :=
  collapse_of_find_none s ((isGeneric_iff s).mp h).2

/-- Normalising `a ++ z` for a generic `a`: only `z` and the seam need work. -/
theorem genericPath_append_of_isGeneric (a z : Str) (ha : IsGeneric a) (hz : '\\' ∉ z) :
    genericPath (a ++ z) = collapse (a ++ collapse z) := by
  have hn : '\\' ∉ a ++ z := by
    simp only [List.mem_append, not_or]
    exact ⟨ha.1, hz⟩
  rw [genericPath_of_not_mem _ hn, collapse_append_right]

/-! ### C9 -/

theorem getHomePath_isGeneric (win : Bool) (env : Env) (cached home : Str)
    (h : IsGeneric cached) (hh : getHomePath win env cached = some home) : IsGeneric home := by
  unfold getHomePath at hh
  simp only at hh
  repeat' (split at hh)
  all_goals first
    | exact Option.noConfusion hh
    | (rw [← Option.some.inj hh]; first | exact genericPath_isGeneric _ | exact h)

theorem getHomePath_of_cached (win : Bool) (env : Env) (cached : Str) (h : cached ≠ []) :
    getHomePath win env cached = some cached := by
  unfold getHomePath
  have : cached.length ≠ 0 := fun e => h (List.length_eq_zero.mp e)
  simp only [if_neg this]

theorem getHomePath_of_home (env : Env) (v : Str) (h : env.getenv "HOME".toList = some v) :
    getHomePath false env [] =
      some (if (cstr v).length ≠ 0 then genericPath (cstr v) else []) := by
  unfold getHomePath
  simp only
  rw [if_pos (by rfl), h]
  simp

/-- With nothing cached and `HOME` not set, `getHomePath` constructs its string from a null
pointer and returns no value. -/
theorem getHomePath_unset (win : Bool) (env : Env) (h : env.getenv "HOME".toList = none) :
    getHomePath win env [] = none := by
  unfold getHomePath
  simp only
  rw [if_pos (by rfl), h]

theorem resolvePath_home_eq (win : Bool) (env : Env) (fs : FS) (cached relativeTo : Str) :
    resolvePath win env fs cached "~/foo".toList relativeTo true =
      (getHomePath win env cached).map (fun home => genericPath (home ++ "//foo".toList)) := by
  have hp : genericPath "~/foo".toList = "~/foo".toList := by rfl
  unfold resolvePath
  simp only [hp]
  have h1 : ("~/foo".toList).length ≠ 0 := by decide
  have h2 : charAt "~/foo".toList 0 ≠ '.' := by decide
  have h3 : (true && (charAt "~/foo".toList 0 == '~')) = true := by decide
  have h4 : cstr (("~/foo".toList).drop 1) = "/foo".toList := by rfl
  rw [if_neg h1, if_neg h2, if_pos h3, h4]
  cases getHomePath win env cached with
  | none => rfl
  | some home =>
    simp only [Option.map_some', List.append_assoc]
    rfl

/-- C9 (amended): whenever `getHomePath()` returns a home path, which it does when the cached
value is not empty and, in the branch without drive letters, when `HOME` is set,
`resolvePath("~/foo", relativeTo, true)` returns `genericPath(getHomePath() + "/" + "/foo")`.
The home path being generic (as every value `getHomePath` stores is), this is
`getHomePath() + "/foo"` when the home path does not end in a slash and `getHomePath() + "foo"`
when it does (`HOME=/`).  With `allowHome = false` the result is `~/foo`. -/
theorem resolvePath_home (win : Bool) (env : Env) (fs : FS) (cached relativeTo : Str)
    (hc : IsGeneric cached) :
    (∀ home, getHomePath win env cached = some home →
      resolvePath win env fs cached "~/foo".toList relativeTo true =
        some (genericPath (home ++ ['/'] ++ "/foo".toList)) ∧
      (home.getLast? ≠ some '/' →
        resolvePath win env fs cached "~/foo".toList relativeTo true =
          some (home ++ "/foo".toList)) ∧
      (home.getLast? = some '/' →
        resolvePath win env fs cached "~/foo".toList relativeTo true =
          some (home ++ "foo".toList))) ∧
    resolvePath win env fs cached "~/foo".toList relativeTo false = some "~/foo".toList ∧
    (cached ≠ [] → getHomePath win env cached = some cached) ∧
    (∀ v, env.getenv "HOME".toList = some v →
      getHomePath false env [] =
        some (if (cstr v).length ≠ 0 then genericPath (cstr v) else [])) := by
  refine ⟨fun home hh => ?_, ?_, getHomePath_of_cached win env cached,
    fun v hv => getHomePath_of_home env v hv⟩
  · have hg := getHomePath_isGeneric win env cached home hc hh
    have e := resolvePath_home_eq win env fs cached relativeTo
    rw [hh, Option.map_some'] at e
    have hz : '\\' ∉ "//foo".toList := by decide
    have hcz : collapse "//foo".toList = "/foo".toList := by rfl
    refine ⟨by rw [e]; simp, fun hl => ?_, fun hl => ?_⟩
    · rw [e, genericPath_append_of_isGeneric _ _ hg hz, hcz]
      exact congrArg some
        (collapse_of_isGeneric (isGeneric_append hg (by decide) (fun h => hl h.1)))
    · rw [e, genericPath_append_of_isGeneric _ _ hg hz, hcz]
      obtain ⟨h', hh2⟩ : ∃ h', home = h' ++ ['/'] := by
        rcases List.eq_nil_or_concat home with h0 | ⟨l, c, h0⟩
        · rw [h0] at hl; simp at hl
        · rw [h0] at hl
          simp at hl
          exact ⟨l, by rw [h0, hl, List.concat_eq_append]⟩
      rw [hh2] at hg ⊢
      have e2 : h' ++ ['/'] ++ "/foo".toList = h' ++ "//foo".toList := by simp
      have e3 : h' ++ ['/'] ++ "foo".toList = h' ++ "/foo".toList := by simp
      rw [e2, ← collapse_append_right, hcz, ← e3]
      exact congrArg some
        (collapse_of_isGeneric (isGeneric_append hg (by decide) (fun h => by simp at h)))
  · have hp : genericPath "~/foo".toList = "~/foo".toList := by rfl
    unfold resolvePath
    simp only [hp]
    have h1 : ("~/foo".toList).length ≠ 0 := by decide
    have h2 : charAt "~/foo".toList 0 ≠ '.' := by decide
    rw [if_neg h1, if_neg h2]
    simp

/-- C9, as stated, fails when the home path ends in a slash: with `HOME=/` the call
`resolvePath("~/foo", "/r", true)` gives `/foo`, while `getHomePath() + "/foo"` is `//foo`. -/
theorem resolvePath_home_counterexample :
    getHomePath false envHomeRoot [] = some ['/'] ∧
    resolvePath false envHomeRoot emptyFS [] "~/foo".toList "/r".toList true =
      some "/foo".toList ∧
    ['/'] ++ "/foo".toList = "//foo".toList ∧
    "/foo".toList ≠ "//foo".toList := by
  refine ⟨by rfl, by rfl, by rfl, by decide⟩

/-- C9 at concrete inputs: with `HOME=/home/u`, `resolvePath("~/foo", "/r", true)` is
`/home/u/foo`; so it is with the home path `/home/u` cached and no variable set; and with
`HOME` empty, `HOMEDRIVE=C:` and `HOMEPATH=\Users\u` the branch with drive letters gives
`C:/Users/u/foo`. -/
theorem resolvePath_home_witness :
    IsGeneric ([] : Str) ∧ getHomePath false envHomeUser [] = some "/home/u".toList ∧
    resolvePath false envHomeUser emptyFS [] "~/foo".toList "/r".toList true =
      some "/home/u/foo".toList ∧
    resolvePath false envNoHome emptyFS "/home/u".toList "~/foo".toList "/r".toList true =
      some "/home/u/foo".toList ∧
    resolvePath true envWinHome emptyFS [] "~/foo".toList "/r".toList true =
      some "C:/Users/u/foo".toList :=
  ⟨isGeneric_nil, by rfl,
    (((resolvePath_home false envHomeUser emptyFS [] "/r".toList isGeneric_nil).1
      "/home/u".toList (by rfl)).2.1 (by decide)).trans (by rfl),
    (((resolvePath_home false envNoHome emptyFS "/home/u".toList "/r".toList (by decide)).1
      "/home/u".toList (by rfl)).2.1 (by decide)).trans (by rfl),
    (((resolvePath_home true envWinHome emptyFS [] "/r".toList isGeneric_nil).1
      "C:/Users/u".toList (by rfl)).2.1 (by decide)).trans (by rfl)⟩

/-! ### C10 -/

theorem cstr_of_not_mem (s : Str) (h : NUL ∉ s) : cstr s = s := by
  unfold cstr
  rw [List.takeWhile_eq_self_iff]
  intro c hc
  have : c ≠ NUL := fun e => h (e ▸ hc)
  simpa [NUL] using this

theorem stripMark_suffix (p : Str) : stripMark p <:+ p := by
  unfold stripMark
  split
  · simp only [erase, List.take_zero, List.nil_append, Nat.zero_add]
    exact List.drop_suffix _ _
  · exact List.suffix_refl _

theorem not_mem_genericPath_of_not_mem (p : Str) (c : Char) (hc : c ≠ '/') (h : c ∉ p) :
    c ∉ genericPath p := by
  rw [genericPath_eq]
  intro hm
  have h1 := (collapse_sublist _).subset hm
  obtain ⟨d, hd, hdc⟩ := List.mem_map.mp h1
  have h2 : d ∈ p := (stripMark_suffix p).subset hd
  unfold toSlash at hdc
  split at hdc
  · exact hc hdc.symm
  · exact h (hdc ▸ h2)

theorem nul_ne_slash : NUL ≠ '/' := by decide

theorem isRegularFile_not_isDirectory (fs : FS) (p : Str) (h : isRegularFile fs p = true) :
    isDirectory fs p = false := by
  unfold isRegularFile at h
  unfold isDirectory
  simp only at h ⊢
  cases hs : fs.stat (cstr (genericPath p)) with
  | none => rfl
  | some info =>
    rw [hs] at h
    simp only [decide_eq_true_eq] at h
    simp [h]

theorem resolvePath_dot_eq (win : Bool) (env : Env) (fs : FS) (cached p relativeTo : Str)
    (allowHome : Bool) (h : (genericPath p).head? = some '.') :
    resolvePath win env fs cached p relativeTo allowHome =
      some (genericPath ((if isDirectory fs relativeTo then relativeTo
        else getParent relativeTo) ++ ['/'] ++ cstr ((genericPath p).drop 1))) := by
  unfold resolvePath
  simp only
  cases hg : genericPath p with
  | nil => rw [hg] at h; simp at h
  | cons c r =>
    rw [hg] at h
    simp at h
    subst h
    simp [charAt]

/-- C10 (amended): for a path whose normalised form begins with `.`, `resolvePath` returns
`genericPath(R + "/" + rest)`, where `R` is `relativeTo` when that is a directory and
`getParent(relativeTo)` otherwise (so for a regular file), and `rest` is the C string after the
first character: the normalised path without its first character, cut at its first NUL
character.  For a path without NUL character `rest` is the whole remainder. -/
theorem resolvePath_dot (win : Bool) (env : Env) (fs : FS) (cached p relativeTo : Str)
    (allowHome : Bool) (h : (genericPath p).head? = some '.') :
    resolvePath win env fs cached p relativeTo allowHome =
      some (genericPath ((if isDirectory fs relativeTo then relativeTo
        else getParent relativeTo) ++ ['/'] ++ cstr ((genericPath p).drop 1))) ∧
    (NUL ∉ p → isDirectory fs relativeTo = true →
      resolvePath win env fs cached p relativeTo allowHome =
        some (genericPath (relativeTo ++ ['/'] ++ (genericPath p).drop 1))) ∧
    (NUL ∉ p → isRegularFile fs relativeTo = true →
      resolvePath win env fs cached p relativeTo allowHome =
        some (genericPath (getParent relativeTo ++ ['/'] ++ (genericPath p).drop 1))) := by
  have e := resolvePath_dot_eq win env fs cached p relativeTo allowHome h
  have hn : NUL ∉ p → cstr ((genericPath p).drop 1) = (genericPath p).drop 1 := fun hp =>
    cstr_of_not_mem _ (fun hm =>
      not_mem_genericPath_of_not_mem p NUL nul_ne_slash hp (List.mem_of_mem_drop hm))
  refine ⟨e, fun hp hd => ?_, fun hp hr => ?_⟩
  · rw [e, hn hp, if_pos hd]
  · rw [e, hn hp, isRegularFile_not_isDirectory fs relativeTo hr]
    simp

/-- C10, as stated, fails for a path with a NUL character: relative to the directory `/r`, the
path made of `.`, NUL and `x` resolves to `/r/`, while `genericPath(R + "/" + rest)` with the
whole remainder as `rest` keeps the NUL and the `x`. -/
theorem resolvePath_dot_counterexample :
    (genericPath ['.', NUL, 'x']).head? = some '.' ∧
    isDirectory dirFS "/r".toList = true ∧
    resolvePath false envCwd dirFS [] ['.', NUL, 'x'] "/r".toList true = some "/r/".toList ∧
    genericPath ("/r".toList ++ ['/'] ++ (genericPath ['.', NUL, 'x']).drop 1) =
      ['/', 'r', '/', NUL, 'x'] ∧
    "/r/".toList ≠ ['/', 'r', '/', NUL, 'x'] := by
  refine ⟨by rfl, by rfl, by rfl, by rfl, by decide⟩

/-- C10 at concrete inputs: relative to the directory `/r`, `./x` gives `/r/x`, `../x` gives
`genericPath("/r" + "/" + "./x")` and `.x` gives `/r/x`. -/
theorem resolvePath_dot_witness :
    resolvePath false envCwd dirFS [] "./x".toList "/r".toList false = some "/r/x".toList ∧
    resolvePath false envCwd dirFS [] "../x".toList "/r".toList false =
      some (genericPath ("/r".toList ++ ['/'] ++ "./x".toList)) ∧
    resolvePath false envCwd dirFS [] ".x".toList "/r".toList false = some "/r/x".toList :=
  ⟨((resolvePath_dot false envCwd dirFS [] "./x".toList "/r".toList false (by rfl)).2.1
      (by decide) (by rfl)).trans (by rfl),
    (resolvePath_dot false envCwd dirFS [] "../x".toList "/r".toList false (by rfl)).2.1
      (by decide) (by rfl),
    ((resolvePath_dot false envCwd dirFS [] ".x".toList "/r".toList false (by rfl)).2.1
      (by decide) (by rfl)).trans (by rfl)⟩

/-! ### The split of canonicalPath -/

theorem find_slash_cons (c : Char) (rest : Str) :
    find ['/'] (c :: rest) = if c = '/' then some 0 else (find ['/'] rest).map (· + 1) := by
  by_cases h : c = '/'
  · subst h; simp [find]
  · have h2 : ¬ ('/' = c) := fun e => h e.symm
    simp [find, h, h2]

theorem find_slash_nil : find ['/'] [] = none := by simp [find]

theorem find_slash_none (s : Str) (h : find ['/'] s = none) : '/' ∉ s := by
  induction s with
  | nil => simp
  | cons c rest ih =>
    rw [find_slash_cons] at h
    by_cases hc : c = '/'
    · simp [hc] at h
    · rw [if_neg hc] at h
      have hc2 : ¬ ('/' = c) := fun e => hc e.symm
      simp at h
      simp [hc2, ih h]

theorem find_slash_some (s : Str) (k : Nat) (h : find ['/'] s = some k) :
    s = s.take k ++ '/' :: s.drop (k + 1) ∧ '/' ∉ s.take k ∧ k < s.length := by
  induction s generalizing k with
  | nil => simp [find_slash_nil] at h
  | cons c rest ih =>
    rw [find_slash_cons] at h
    by_cases hc : c = '/'
    · rw [if_pos hc] at h
      simp at h
      subst h; subst hc
      simp
    · rw [if_neg hc] at h
      simp at h
      obtain ⟨a, ha, rfl⟩ := h
      obtain ⟨h1, h2, h3⟩ := ih a ha
      have hc2 : ¬ ('/' = c) := fun e => hc e.symm
      simp only [List.take_succ_cons, List.drop_succ_cons, List.cons_append, List.mem_cons,
        not_or, List.length_cons]
      exact ⟨by rw [← h1], ⟨hc2, h2⟩, by omega⟩

theorem splitOn_of_not_mem (s : Str) (h : '/' ∉ s) : s.splitOn '/' = [s] := by
  unfold List.splitOn
  apply List.splitOnP_eq_single
  intro x hx hp
  have : x = '/' := by simpa using hp
  exact h (this ▸ hx)

theorem splitOn_append_slash (a b : Str) (h : '/' ∉ a) :
    (a ++ '/' :: b).splitOn '/' = a :: b.splitOn '/' := by
  unfold List.splitOn
  apply List.splitOnP_first
  · intro x hx hp
    have : x = '/' := by simpa using hp
    exact h (this ▸ hx)
  · simp

theorem splitOn_ne_nil (s : Str) : s.splitOn '/' ≠ [] := List.splitOnP_ne_nil _ _

theorem trimLast_cons (a : Str) (l : List Str) (h : l ≠ []) :
    trimLast (a :: l) = a :: trimLast l := by
  unfold trimLast
  cases l with
  | nil => exact absurd rfl h
  | cons b t =>
    rw [List.getLast?_cons_cons]
    split
    · rw [List.dropLast_cons₂]
    · rfl

theorem splitLoop_eq (fuel : Nat) (s : Str) (h : s.length < fuel) :
    splitLoop fuel s = some (trimLast (s.splitOn '/')) := by
  induction fuel generalizing s with
  | zero => omega
  | succ n ih =>
    unfold splitLoop
    cases hf : find ['/'] s with
    | none =>
      have hs := find_slash_none s hf
      simp only
      rw [splitOn_of_not_mem s hs]
      cases s with
      | nil => simp [trimLast]
      | cons c r => simp [trimLast]
    | some k =>
      obtain ⟨h1, h2, h3⟩ := find_slash_some s k hf
      have hl : (s.drop (k + 1)).length < n := by
        simp only [List.length_drop]
        omega
      simp only
      rw [ih _ hl]
      conv_rhs => rw [h1, splitOn_append_slash _ _ h2, trimLast_cons _ _ (splitOn_ne_nil _)]
      rfl

theorem pathList_eq (s : Str) : pathList s = trimLast (s.splitOn '/') := by
  unfold pathList
  rw [splitLoop_eq _ s (Nat.lt_succ_self _)]
  rfl

theorem mem_splitOn (s : Str) :
    ∀ l ∈ s.splitOn '/', '/' ∉ l ∧ ∀ c ∈ l, c ∈ s := by
  induction s with
  | nil =>
    intro l hl
    simp at hl
    subst hl
    simp
  | cons c r ih =>
    intro l hl
    unfold List.splitOn at hl ih
    rw [List.splitOnP_cons] at hl
    by_cases hc : c = '/'
    · subst hc
      simp only [beq_self_eq_true, if_true, List.mem_cons] at hl
      rcases hl with hl | hl
      · subst hl; simp
      · obtain ⟨h1, h2⟩ := ih l hl
        exact ⟨h1, fun x hx => List.mem_cons_of_mem _ (h2 x hx)⟩
    · have hc2 : (c == '/') = false := by simpa using hc
      rw [hc2] at hl
      simp only [Bool.false_eq_true, if_false] at hl
      cases hsp : List.splitOnP (fun x => x == '/') r with
      | nil => exact absurd hsp (List.splitOnP_ne_nil _ _)
      | cons a t =>
        rw [hsp] at hl ih
        simp only [List.modifyHead_cons, List.mem_cons] at hl
        rcases hl with hl | hl
        · subst hl
          obtain ⟨h1, h2⟩ := ih a (List.mem_cons_self _ _)
          refine ⟨?_, ?_⟩
          · simp only [List.mem_cons, not_or]
            exact ⟨fun e => hc e.symm, h1⟩
          · intro x hx
            rcases List.mem_cons.mp hx with hx | hx
            · subst hx; exact List.mem_cons_self _ _
            · exact List.mem_cons_of_mem _ (h2 x hx)
        · obtain ⟨h1, h2⟩ := ih l (List.mem_cons_of_mem _ hl)
          exact ⟨h1, fun x hx => List.mem_cons_of_mem _ (h2 x hx)⟩

theorem trimLast_subset (l : List Str) : ∀ s ∈ trimLast l, s ∈ l := by
  intro s hs
  unfold trimLast at hs
  split at hs
  · exact (List.dropLast_subset l) hs
  · exact hs

/-! ### Rebuilt paths -/

theorem intercalate_snoc (l : List Str) (s : Str) :
    ['/'].intercalate (l ++ [s]) = if l = [] then s else ['/'].intercalate l ++ '/' :: s := by
  induction l with
  | nil => simp [List.intercalate]
  | cons a t ih =>
    cases t with
    | nil => simp [List.intercalate]
    | cons b t' =>
      have e1 : ['/'].intercalate (a :: b :: t' ++ [s]) =
          a ++ '/' :: ['/'].intercalate (b :: t' ++ [s]) := by
        simp [List.intercalate]
      have e2 : ['/'].intercalate (a :: b :: t') = a ++ '/' :: ['/'].intercalate (b :: t') := by
        simp [List.intercalate]
      rw [e1, ih, e2]
      simp

theorem rebuild_nil (win : Bool) : rebuild win [] = [] := by
  cases win <;> rfl

theorem rebuild_posix_snoc (st : List Str) (s : Str) :
    rebuild false (st ++ [s]) = rebuild false st ++ '/' :: s := by
  unfold rebuild
  simp only [Bool.false_eq_true, if_false]
  rw [← List.cons_append, intercalate_snoc]
  simp

theorem rebuild_win_snoc (st : List Str) (s : Str) :
    rebuild true (st ++ [s]) = if st = [] then s else rebuild true st ++ '/' :: s := by
  unfold rebuild
  simp only [if_true]
  exact intercalate_snoc st s

theorem isGeneric_slash_segment {s : Str} (hs : IsSegment s) : IsGeneric ('/' :: s) := by
  obtain ⟨h1, h2, h3⟩ := hs
  rw [isGeneric_iff, find_backslash_none_iff, find_slashes_cons]
  refine ⟨?_, ?_⟩
  · simp only [List.mem_cons, not_or]
    exact ⟨by decide, h3⟩
  · have hh : ¬ ('/' = '/' ∧ s.head? = some '/') := by
      rintro ⟨_, hh⟩
      cases s with
      | nil => simp at hh
      | cons c r =>
        simp at hh
        exact h2 (by simp [hh])
    rw [if_neg hh]
    simp only [Option.map_eq_none']
    rw [find_eq_none_iff]
    intro hi
    exact h2 (hi.subset (by simp))

theorem isGeneric_segment {s : Str} (hs : IsSegment s) : IsGeneric s :=
  isGeneric_of_part (isGeneric_slash_segment hs) ( List.suffix_cons _ _).isInfix

theorem segment_getLast_self {s : Str} (hs : IsSegment s) : s.getLast? ≠ some '/' :=
  fun e => hs.2.1 (List.mem_of_getLast?_eq_some e)

theorem segment_getLast {s : Str} (hs : IsSegment s) (a : Str) :
    (a ++ '/' :: s).getLast? ≠ some '/' := by
  obtain ⟨h1, h2, _⟩ := hs
  obtain ⟨l, c, rfl⟩ : ∃ l c, s = l ++ [c] := by
    rcases List.eq_nil_or_concat s with h | ⟨l, c, h⟩
    · exact absurd h h1
    · exact ⟨l, c, by rw [h, List.concat_eq_append]⟩
  have : a ++ '/' :: (l ++ [c]) = (a ++ '/' :: l) ++ [c] := by simp
  rw [this, List.getLast?_concat]
  intro e
  simp only [Option.some.injEq] at e
  exact h2 (by simp [e])

/-- Appending a segment to a generic path that does not end in a slash. -/
theorem isGeneric_append_segment {a s : Str} (ha : IsGeneric a) (hl : a.getLast? ≠ some '/')
    (hs : IsSegment s) : IsGeneric (a ++ '/' :: s) :=
  isGeneric_append ha (isGeneric_slash_segment hs) (fun h => hl h.1)

theorem find_last_of_none (c : Char) (s : Str) (h : c ∉ s) : find_last_of c s = none := by
  induction s with
  | nil => rfl
  | cons d r ih =>
    simp only [List.mem_cons, not_or] at h
    unfold find_last_of
    rw [ih h.2]
    have : ¬ (d = c) := fun e => h.1 e.symm
    simp [this]

theorem find_last_of_append (c : Char) (a b : Str) (h : c ∉ b) :
    find_last_of c (a ++ c :: b) = some a.length := by
  induction a with
  | nil =>
    simp only [List.nil_append, List.length_nil]
    unfold find_last_of
    rw [find_last_of_none c b h]
    simp
  | cons d r ih =>
    rw [List.cons_append]
    unfold find_last_of
    rw [ih]
    simp

theorem getParent_append_segment {a s : Str} (ha : IsGeneric a) (hl : a.getLast? ≠ some '/')
    (hs : IsSegment s) : getParent (a ++ '/' :: s) = a := by
  unfold getParent
  simp only
  rw [genericPath_of_isGeneric _ (isGeneric_append_segment ha hl hs),
    find_last_of_append '/' a s hs.2.1]
  simp

theorem getParent_of_not_mem {s : Str} (hg : IsGeneric s) (h : '/' ∉ s) : getParent s = s := by
  unfold getParent
  simp only
  rw [genericPath_of_isGeneric _ hg, find_last_of_none '/' s h]

theorem rebuild_eq_nil_iff (win : Bool) (st : List Str) (h : ∀ s ∈ st, IsSegment s) :
    rebuild win st = [] ↔ st = [] := by
  constructor
  · intro e
    rcases List.eq_nil_or_concat st with h0 | ⟨l, c, h0⟩
    · exact h0
    · rw [List.concat_eq_append] at h0
      subst h0
      have hc : c ≠ [] := (h c (by simp)).1
      cases win with
      | false => rw [rebuild_posix_snoc] at e; simp at e
      | true =>
        rw [rebuild_win_snoc] at e
        split at e
        · exact absurd e hc
        · simp at e
  · intro e
    subst e
    exact rebuild_nil win

theorem rebuild_isGeneric (win : Bool) (st : List Str) (h : ∀ s ∈ st, IsSegment s) :
    IsGeneric (rebuild win st) ∧ (rebuild win st).getLast? ≠ some '/' := by
  induction st using List.reverseRecOn with
  | nil => rw [rebuild_nil]; exact ⟨isGeneric_nil, by simp⟩
  | append_singleton l c ih =>
    have hl : ∀ s ∈ l, IsSegment s := fun s hs => h s (by simp [hs])
    have hc : IsSegment c := h c (by simp)
    obtain ⟨g1, g2⟩ := ih hl
    cases win with
    | false =>
      rw [rebuild_posix_snoc]
      exact ⟨isGeneric_append_segment g1 g2 hc, segment_getLast hc _⟩
    | true =>
      rw [rebuild_win_snoc]
      split
      · exact ⟨isGeneric_segment hc, segment_getLast_self hc⟩
      · exact ⟨isGeneric_append_segment g1 g2 hc, segment_getLast hc _⟩

/-! ### The walk on a filesystem without symbolic links -/

theorem stackStepOf_dotdot (win : Bool) (st : List Str) :
    stackStepOf win st ['.', '.'] = if win = true ∧ st.length = 1 then st else st.dropLast := by
  unfold stackStepOf stackStep
  by_cases h : win = true ∧ st.length = 1
  · rw [if_pos ⟨h.1, rfl, h.2⟩, if_pos h]
  · have h2 : ¬ (win = true ∧ ['.', '.'] = ['.', '.'] ∧ st.length = 1) := fun e => h ⟨e.1, e.2.2⟩
    rw [if_neg h2, if_neg h]
    simp

theorem stackStepOf_skip (win : Bool) (st : List Str) (it : Str) (h : it = [] ∨ it = ['.']) :
    stackStepOf win st it = st := by
  unfold stackStepOf stackStep
  have h2 : it ≠ ['.', '.'] := by
    rcases h with h | h <;> rw [h] <;> decide
  simp [h2, h]

theorem stackStepOf_keep (win : Bool) (st : List Str) (it : Str) (h1 : it ≠ [])
    (h2 : it ≠ ['.']) (h3 : it ≠ ['.', '.']) : stackStepOf win st it = st ++ [it] := by
  unfold stackStepOf stackStep
  simp [h1, h2, h3]

theorem getParent_rebuild (win : Bool) (st : List Str) (h : ∀ s ∈ st, IsSegment s) :
    getParent (rebuild win st) = rebuild win (stackStepOf win st ['.', '.']) := by
  rw [stackStepOf_dotdot]
  rcases List.eq_nil_or_concat st with h0 | ⟨l, c, h0⟩
  · subst h0
    simp only [List.length_nil, List.dropLast_nil]
    rw [rebuild_nil, getParent_of_not_mem isGeneric_nil (by simp)]
    split <;> rw [rebuild_nil]
  · rw [List.concat_eq_append] at h0
    subst h0
    have hl : ∀ s ∈ l, IsSegment s := fun s hs => h s (by simp [hs])
    have hc : IsSegment c := h c (by simp)
    obtain ⟨g1, g2⟩ := rebuild_isGeneric win l hl
    cases win with
    | false =>
      rw [rebuild_posix_snoc, getParent_append_segment g1 g2 hc]
      simp
    | true =>
      rw [rebuild_win_snoc]
      by_cases hl0 : l = []
      · subst hl0
        simp only [if_true, List.nil_append, List.length_singleton, and_self]
        rw [getParent_of_not_mem (isGeneric_segment hc) hc.2.1]
        have := rebuild_win_snoc [] c
        simp only [if_true, List.nil_append] at this
        exact this.symm
      · rw [if_neg hl0, getParent_append_segment g1 g2 hc]
        have : ¬ (true = true ∧ (l ++ [c]).length = 1) := by
          rintro ⟨_, e⟩
          apply hl0
          simp at e
          exact e
        rw [if_neg this]
        simp

theorem stackStepOf_isSegment (win : Bool) (st : List Str) (it : Str)
    (h : ∀ s ∈ st, IsSegment s ∧ s ≠ ['.'] ∧ s ≠ ['.', '.']) (hit : '/' ∉ it ∧ '\\' ∉ it) :
    ∀ s ∈ stackStepOf win st it, IsSegment s ∧ s ≠ ['.'] ∧ s ≠ ['.', '.'] := by
  by_cases h1 : it = [] ∨ it = ['.']
  · rw [stackStepOf_skip win st it h1]; exact h
  · by_cases h2 : it = ['.', '.']
    · subst h2
      rw [stackStepOf_dotdot]
      split
      · exact h
      · exact fun s hs => h s (List.dropLast_subset st hs)
    · simp only [not_or] at h1
      rw [stackStepOf_keep win st it h1.1 h1.2 h2]
      intro s hs
      rcases List.mem_append.mp hs with hs | hs
      · exact h s hs
      · simp at hs
        subst hs
        exact ⟨⟨h1.1, hit.1, hit.2⟩, h1.2, h2⟩

theorem foldl_stackStepOf_isSegment (win : Bool) (segs : List Str) (st : List Str)
    (h : ∀ s ∈ st, IsSegment s ∧ s ≠ ['.'] ∧ s ≠ ['.', '.'])
    (hsegs : ∀ s ∈ segs, '/' ∉ s ∧ '\\' ∉ s) :
    ∀ s ∈ segs.foldl (stackStepOf win) st, IsSegment s ∧ s ≠ ['.'] ∧ s ≠ ['.', '.'] := by
  induction segs generalizing st with
  | nil => exact h
  | cons it rest ih =>
    rw [List.foldl_cons]
    exact ih _ (stackStepOf_isSegment win st it h (hsegs it (by simp)))
      (fun s hs => hsegs s (by simp [hs]))

/-- Without symbolic links the walk of `canonicalPath` runs to its end and computes the segment
stack: started on the path rebuilt from `st`, it ends on the path rebuilt from the stack after
the remaining segments. -/
theorem walk_noSymlinks (win : Bool) (fs : FS) (hfs : NoSymlinks win fs) (segs : List Str)
    (st : List Str) (h : ∀ s ∈ st, IsSegment s ∧ s ≠ ['.'] ∧ s ≠ ['.', '.'])
    (hsegs : ∀ s ∈ segs, '/' ∉ s ∧ '\\' ∉ s) :
    walk win fs (rebuild win st) segs =
      Walk.done (rebuild win (segs.foldl (stackStepOf win) st)) := by
  induction segs generalizing st with
  | nil => rfl
  | cons it rest ih =>
    have hrest : ∀ s ∈ rest, '/' ∉ s ∧ '\\' ∉ s := fun s hs => hsegs s (by simp [hs])
    have hst : ∀ s ∈ st, IsSegment s := fun s hs => (h s hs).1
    have hnext := stackStepOf_isSegment win st it h (hsegs it (by simp))
    rw [List.foldl_cons, walk]
    by_cases h0 : it.length = 0
    · have e : it = [] := List.length_eq_zero.mp h0
      rw [if_pos h0, ih st h hrest, stackStepOf_skip win st it (Or.inl e)]
    · rw [if_neg h0]
      have e0 : it ≠ [] := fun e => h0 (by rw [e]; rfl)
      by_cases h1 : it = ['.']
      · rw [if_pos h1, ih st h hrest, stackStepOf_skip win st it (Or.inr h1)]
      · rw [if_neg h1]
        by_cases h2 : it = ['.', '.']
        · rw [if_pos h2, getParent_rebuild win st hst]
          subst h2
          exact ih _ hnext hrest
        · rw [if_neg h2]
          have hk := stackStepOf_keep win st it e0 h1 h2
          have hp : rebuild win st ++ (if win = true then
              (if (rebuild win st).length = 0 then it else ['/'] ++ it) else ['/'] ++ it) =
              rebuild win (st ++ [it]) := by
            cases win with
            | false => rw [rebuild_posix_snoc]; simp
            | true =>
              rw [rebuild_win_snoc]
              by_cases hs0 : st = []
              · subst hs0
                simp [rebuild_nil]
              · have : (rebuild true st).length ≠ 0 := fun e =>
                  hs0 ((rebuild_eq_nil_iff true st hst).mp (List.length_eq_zero.mp e))
                simp [hs0, this]
          simp only [hp, hfs _, Bool.false_eq_true, if_false]
          rw [hk] at hnext ⊢
          exact ih _ hnext hrest

/-! ### C3 -/

theorem foldl_trimLast (win : Bool) (l : List Str) (st : List Str) :
    (trimLast l).foldl (stackStepOf win) st = l.foldl (stackStepOf win) st := by
  unfold trimLast
  split
  · rename_i h
    obtain ⟨ys, hy⟩ := List.getLast?_eq_some_iff.mp h
    rw [hy, List.dropLast_concat, List.foldl_append]
    simp [stackStepOf_skip]
  · rfl

theorem noSymlinks_emptyFS (win : Bool) : NoSymlinks win emptyFS := by
  intro q
  cases win <;> simp [isSymlink, emptyFS]

theorem scanLoop_of_done (win : Bool) (fs : FS) (fuel : Nat) (path r : Str)
    (h : walk win fs [] (pathList path) = Walk.done r) :
    scanLoop win fs (fuel + 1) path = some r := by
  rw [scanLoop, h]

theorem stackStepOf_posix : stackStepOf false = stackStep := by
  funext st it
  simp [stackStepOf]

theorem splitOn_rebuild (win : Bool) (st : List Str) (h : ∀ s ∈ st, IsSegment s) :
    ∀ s ∈ (rebuild win st).splitOn '/', s = [] ∨ s ∈ st := by
  intro s hs
  by_cases h0 : win = true ∧ st = []
  · obtain ⟨_, rfl⟩ := h0
    rw [rebuild_nil] at hs
    simp at hs
    exact Or.inl hs
  · unfold rebuild at hs
    rw [List.splitOn_intercalate] at hs
    · cases win with
      | false =>
        simp only [Bool.false_eq_true, if_false, List.mem_cons] at hs
        exact hs
      | true =>
        simp only [if_true] at hs
        exact Or.inr hs
    · intro l hl
      cases win with
      | false =>
        simp only [Bool.false_eq_true, if_false, List.mem_cons] at hl
        rcases hl with hl | hl
        · subst hl; simp
        · exact (h l hl).2.1
      | true =>
        simp only [if_true] at hl
        exact (h l hl).2.1
    · cases win with
      | false => simp
      | true => simpa using h0

/-- C3 (amended): on a filesystem with no symbolic links, when the current-working-directory
query yields an absolute path, for every absolute path `p`, `canonicalPath(p)` finishes in a
single walk.  Take the segment stack obtained by scanning the `/`-separated segments of
`genericPath(p)` left to right, dropping empty and `.` segments, removing the last kept segment
on `..` (no effect when nothing is kept and, in the drive-letter branch, when a single segment
is kept) and keeping every other segment: when the stack is not empty at the end, the result is
the path rebuilt from it.  The result has no `.` or `..` segment.  In the branch without drive
letters the stack is the one of the specification. -/
theorem canonicalPath_no_symlinks (win : Bool) (env : Env) (fs : FS) (p : Str)
    (hfs : NoSymlinks win fs) (hp : isAbsolute win p = true)
    (hcwd : isAbsolute win (getCWDPath env) = true) :
    (∀ fuel, 1 ≤ fuel → ∃ res, canonicalPath win env fs fuel p = some res ∧
      (((genericPath p).splitOn '/').foldl (stackStepOf win) [] ≠ [] →
        res = rebuild win (((genericPath p).splitOn '/').foldl (stackStepOf win) [])) ∧
      ∀ s ∈ res.splitOn '/', s ≠ ['.'] ∧ s ≠ ['.', '.']) ∧
    (win = false → ((genericPath p).splitOn '/').foldl (stackStepOf win) [] =
      ((genericPath p).splitOn '/').foldl stackStep []) := by
  have hsegs : ∀ s ∈ (genericPath p).splitOn '/', '/' ∉ s ∧ '\\' ∉ s := fun s hs =>
    ⟨(mem_splitOn _ s hs).1, fun hm => (genericPath_isGeneric p).1 ((mem_splitOn _ s hs).2 _ hm)⟩
  have hstack := foldl_stackStepOf_isSegment win ((genericPath p).splitOn '/') []
    (fun s hs => by simp at hs) hsegs
  refine ⟨?_, ?_⟩
  · intro fuel hf
    obtain ⟨n, rfl⟩ : ∃ n, fuel = n + 1 := ⟨fuel - 1, by omega⟩
    refine ⟨rebuild win (((genericPath p).splitOn '/').foldl (stackStepOf win) []), ?_,
      fun _ => rfl, ?_⟩
    · unfold canonicalPath defaultBase
      rw [absolutePath_of_absolute_base win env n p _ hcwd, if_pos hp, Option.some_bind]
      apply scanLoop_of_done
      have hw := walk_noSymlinks win fs hfs (pathList (genericPath p)) []
        (fun s hs => by simp at hs)
        (fun s hs => hsegs s (by rw [pathList_eq] at hs; exact trimLast_subset _ s hs))
      rw [rebuild_nil] at hw
      rw [hw, pathList_eq, foldl_trimLast]
    · intro s hs
      rcases splitOn_rebuild win _ (fun t ht => (hstack t ht).1) s hs with h0 | h0
      · subst h0
        exact ⟨by decide, by decide⟩
      · exact (hstack s h0).2
  · intro hw
    subst hw
    rw [stackStepOf_posix]

/-- C3, as stated, fails in three ways.  In the drive-letter branch `canonicalPath("C:/..")` is
`C:`, while the stack of the claim is empty after `..` removed `C:`.  The absolute path
`/a\b/..` gives `/a`, while the stack of its own `/`-separated segments is empty.  And when
`getcwd` fails, `canonicalPath("/a")` never returns. -/
theorem canonicalPath_no_symlinks_counterexample :
    (canonicalPath true envWin emptyFS 1 "C:/..".toList = some "C:".toList ∧
      ("C:/..".toList.splitOn '/').foldl stackStep [] = []) ∧
    (canonicalPath false envCwd emptyFS 1 "/a\\b/..".toList = some "/a".toList ∧
      ("/a\\b/..".toList.splitOn '/').foldl stackStep [] = []) ∧
    ¬ ∃ fuel r, canonicalPath false envNoCwd emptyFS fuel "/a".toList = some r := by
  refine ⟨⟨by rfl, by rfl⟩, ⟨by rfl, by rfl⟩, ?_⟩
  rintro ⟨fuel, r, h⟩
  unfold canonicalPath defaultBase at h
  rw [absolutePath_none_of_relative false envNoCwd fuel _ _ (by decide) (by decide)] at h
  exact Option.noConfusion h

/-- C3 at the inputs of the claim: `/Users/foo/../bar/./baz.TXT` gives `/Users/bar/baz.TXT`,
and in the drive-letter branch `C:/Users/foo/../bar/./baz.TXT` gives `C:/Users/bar/baz.TXT`. -/
theorem canonicalPath_no_symlinks_witness :
    canonicalPath false envCwd emptyFS 1 "/Users/foo/../bar/./baz.TXT".toList =
      some "/Users/bar/baz.TXT".toList ∧
    canonicalPath true envWin emptyFS 1 "C:/Users/foo/../bar/./baz.TXT".toList =
      some "C:/Users/bar/baz.TXT".toList := by
  obtain ⟨r1, h1, h2, _⟩ := (canonicalPath_no_symlinks false envCwd emptyFS
    "/Users/foo/../bar/./baz.TXT".toList (noSymlinks_emptyFS false) (by rfl) (by rfl)).1 1
    (le_refl 1)
  obtain ⟨r2, h3, h4, _⟩ := (canonicalPath_no_symlinks true envWin emptyFS
    "C:/Users/foo/../bar/./baz.TXT".toList (noSymlinks_emptyFS true) (by rfl) (by rfl)).1 1
    (le_refl 1)
  refine ⟨?_, ?_⟩
  · rw [h1, h2 (by decide)]
    rfl
  · rw [h3, h4 (by decide)]
    rfl

/-! ### Fuel -/

theorem absolutePath_mono (win : Bool) (env : Env) (fuel : Nat) (p base r : Str)
    (h : absolutePath win env fuel p base = some r) :
    ∀ fuel2, fuel ≤ fuel2 → absolutePath win env fuel2 p base = some r := by
  induction fuel generalizing p base r with
  | zero => simp [absolutePath] at h
  | succ n ih =>
    intro fuel2 hf
    obtain ⟨m, rfl⟩ : ∃ m, fuel2 = m + 1 := ⟨fuel2 - 1, by omega⟩
    rw [absolutePath_succ] at h ⊢
    by_cases hb : isAbsolute win base = true
    · rw [if_pos hb] at h ⊢
      exact h
    · rw [if_neg hb] at h ⊢
      obtain ⟨b, hb1, hb2⟩ := Option.map_eq_some'.mp h
      rw [ih _ _ _ hb1 m (by omega)]
      simpa using hb2

theorem scanLoop_mono (win : Bool) (fs : FS) (fuel : Nat) (path r : Str)
    (h : scanLoop win fs fuel path = some r) :
    ∀ fuel2, fuel ≤ fuel2 → scanLoop win fs fuel2 path = some r := by
  induction fuel generalizing path with
  | zero => simp [scanLoop] at h
  | succ n ih =>
    intro fuel2 hf
    obtain ⟨m, rfl⟩ : ∃ m, fuel2 = m + 1 := ⟨fuel2 - 1, by omega⟩
    rw [scanLoop] at h ⊢
    cases hw : walk win fs [] (pathList path) with
    | done q => rw [hw] at h; exact h
    | failed => rw [hw] at h; exact h
    | spliced q =>
      rw [hw] at h
      exact ih q h m (by omega)

theorem canonicalPath_mono (win : Bool) (env : Env) (fs : FS) (fuel : Nat) (p r : Str)
    (h : canonicalPath win env fs fuel p = some r) :
    ∀ fuel2, fuel ≤ fuel2 → canonicalPath win env fs fuel2 p = some r := by
  intro fuel2 hf
  unfold canonicalPath defaultBase at h ⊢
  obtain ⟨a, ha, hs⟩ := Option.bind_eq_some.mp h
  rw [absolutePath_mono win env fuel p _ a ha fuel2 hf, Option.some_bind]
  exact scanLoop_mono win fs fuel a r hs fuel2 hf

theorem scanLoop_congr (win : Bool) (fs : FS) (fuel : Nat) (p q : Str)
    (h : pathList p = pathList q) : scanLoop win fs fuel p = scanLoop win fs fuel q := by
  cases fuel with
  | zero => rfl
  | succ n => rw [scanLoop, scanLoop, h]

/-! ### C4 -/

/-- C4: the code at the failing input.  The filesystem has no symbolic link, so no resolution
can fail, and still `canonicalPath("/")` and `canonicalPath("/a/..")` return the empty
string. -/
theorem canonicalPath_root_is_empty :
    NoSymlinks false emptyFS ∧
    (∀ fuel, 1 ≤ fuel → canonicalPath false envCwd emptyFS fuel ['/'] = some []) ∧
    (∀ fuel, 1 ≤ fuel → canonicalPath false envCwd emptyFS fuel "/a/..".toList = some []) :=
  ⟨noSymlinks_emptyFS false,
    fun fuel hf => canonicalPath_mono false envCwd emptyFS 1 _ _ (by rfl) fuel hf,
    fun fuel hf => canonicalPath_mono false envCwd emptyFS 1 _ _ (by rfl) fuel hf⟩

/-! ### Symbolic links -/

theorem resize_nil (n : Nat) : resize [] n = List.replicate n NUL := by
  simp [resize]

/-- In the branch without drive letters, a path that names a symbolic link whose text can be
read resolves to the normalised link text. -/
theorem resolveSymlink_of_link (fs : FS) (q link text : Str)
    (h1 : cstr (genericPath q) = link)
    (h2 : fs.lstat link = some ⟨FileType.symlink, text.length⟩)
    (h3 : fs.readlink link = some text) (h4 : text ≠ []) :
    isSymlink false fs q = true ∧ resolveSymlink false fs q = genericPath text := by
  have hpos : 0 < text.length := List.length_pos.mpr h4
  constructor
  · simp [isSymlink, h1, h2]
  · simp only [resolveSymlink, h1, h2, h3, resize_nil, Bool.false_eq_true, if_false,
      List.length_replicate, Nat.min_self, gt_iff_lt, hpos, if_true]
    simp

theorem walk_cons_keep (win : Bool) (fs : FS) (path it : Str) (rest : List Str)
    (h0 : it.length ≠ 0) (h1 : it ≠ ['.']) (h2 : it ≠ ['.', '.']) :
    walk win fs path (it :: rest) =
      if isSymlink win fs (nextPath win path it) then
        if (resolveSymlink win fs (nextPath win path it)).length = 0 then Walk.failed
        else Walk.spliced (reappend
          (if isAbsolute win (resolveSymlink win fs (nextPath win path it)) then
            resolveSymlink win fs (nextPath win path it)
          else getParent (nextPath win path it) ++ ['/'] ++
            resolveSymlink win fs (nextPath win path it)) rest)
      else walk win fs (nextPath win path it) rest := by
  rw [walk, if_neg h0, if_neg h1, if_neg h2]
  rfl

theorem walk_append_of_done (win : Bool) (fs : FS) (a b : List Str) (path0 path1 : Str)
    (h : walk win fs path0 a = Walk.done path1) :
    walk win fs path0 (a ++ b) = walk win fs path1 b := by
  induction a generalizing path0 with
  | nil =>
    simp only [walk, Walk.done.injEq] at h
    subst h
    rfl
  | cons it rest ih =>
    rw [List.cons_append]
    by_cases h0 : it.length = 0
    · rw [walk, if_pos h0] at h ⊢
      exact ih _ h
    · by_cases h1 : it = ['.']
      · rw [walk, if_neg h0, if_pos h1] at h ⊢
        exact ih _ h
      · by_cases h2 : it = ['.', '.']
        · rw [walk, if_neg h0, if_neg h1, if_pos h2] at h ⊢
          exact ih _ h
        · rw [walk_cons_keep win fs path0 it _ h0 h1 h2] at h ⊢
          by_cases h3 : isSymlink win fs (nextPath win path0 it) = true
          · rw [if_pos h3] at h
            split at h <;> exact Walk.noConfusion h
          · rw [if_neg h3] at h ⊢
            exact ih _ h

/-- The step of the walk at a symbolic link whose text can be read. -/
theorem walk_at_link (fs : FS) (link text path it : Str) (rest : List Str)
    (hit : it ≠ [] ∧ it ≠ ['.'] ∧ it ≠ ['.', '.'])
    (h1 : cstr (genericPath (path ++ '/' :: it)) = link)
    (h2 : fs.lstat link = some ⟨FileType.symlink, text.length⟩)
    (h3 : fs.readlink link = some text) (h4 : text ≠ []) (h5 : genericPath text ≠ []) :
    walk false fs path (it :: rest) =
      Walk.spliced (reappend (if isAbsolute false (genericPath text) then genericPath text
        else getParent (path ++ '/' :: it) ++ ['/'] ++ genericPath text) rest) := by
  obtain ⟨e1, e2⟩ := resolveSymlink_of_link fs (path ++ '/' :: it) link text h1 h2 h3 h4
  have h0 : it.length ≠ 0 := fun e => hit.1 (List.length_eq_zero.mp e)
  have h6 : (genericPath text).length ≠ 0 := fun e => h5 (List.length_eq_zero.mp e)
  rw [walk, if_neg h0, if_neg hit.2.1, if_neg hit.2.2]
  simp only [Bool.false_eq_true, if_false, List.singleton_append, e1, e2, if_true, h6]

/-! ### C5 -/

theorem reappend_ne_nil (path : Str) (rest : List Str) (h : path ≠ []) :
    reappend path rest ≠ [] := by
  induction rest generalizing path with
  | nil => exact h
  | cons it r ih =>
    unfold reappend
    rw [List.foldl_cons]
    exact ih _ (by simp [h])

theorem scanLoop_of_spliced (win : Bool) (fs : FS) (fuel : Nat) (path q : Str)
    (h : walk win fs [] (pathList path) = Walk.spliced q) :
    scanLoop win fs (fuel + 1) path = scanLoop win fs fuel q := by
  rw [scanLoop, h]

/-- C5 (amended), branch without drive letters: when the walk of `canonicalPath` reaches a
dangling symbolic link whose text can be read and is not empty once normalised, it does not
return the empty string: it splices the normalised link text in place of the link (in place of
the last segment when the text is relative), re-appends the segments not yet consumed, and scans
the resulting path, which is not empty, again. -/
theorem canonicalPath_dangling_link (env : Env) (fs : FS) (link text _path p : Str)
    (consumed : List Str) (path1 it : Str) (rest : List Str)
    (hd : DanglingLink fs link text) (ht : genericPath text ≠ [])
    (habs : absolutePath false env 1 _path (getCWDPath env) = some p)
    (hp : pathList p = consumed ++ it :: rest)
    (hw : walk false fs [] consumed = Walk.done path1)
    (hit : it ≠ [] ∧ it ≠ ['.'] ∧ it ≠ ['.', '.'])
    (hl : cstr (genericPath (path1 ++ '/' :: it)) = link) :
    ∃ q, q = reappend (if isAbsolute false (genericPath text) then genericPath text
        else getParent (path1 ++ '/' :: it) ++ ['/'] ++ genericPath text) rest ∧
      q ≠ [] ∧
      walk false fs [] (pathList p) = Walk.spliced q ∧
      ∀ fuel, canonicalPath false env fs (fuel + 2) _path = scanLoop false fs (fuel + 1) q := by
  refine ⟨_, rfl, ?_, ?_, ?_⟩
  · apply reappend_ne_nil
    split
    · exact ht
    · simp
  · rw [hp, walk_append_of_done false fs consumed _ [] path1 hw]
    exact walk_at_link fs link text path1 it rest hit hl hd.1 hd.2.1 hd.2.2.1 ht
  · intro fuel
    unfold canonicalPath defaultBase
    rw [absolutePath_mono false env 1 _ _ p habs (fuel + 2) (by omega), Option.some_bind]
    apply scanLoop_of_spliced
    rw [hp, walk_append_of_done false fs consumed _ [] path1 hw]
    exact walk_at_link fs link text path1 it rest hit hl hd.1 hd.2.1 hd.2.2.1 ht

/-- C5, as stated, fails: `/l` is a dangling symbolic link with the readable text `nowhere`,
and `canonicalPath("/l/x")` returns `/nowhere/x`, not the empty string. -/
theorem canonicalPath_dangling_link_counterexample :
    DanglingLink danglingFS "/l".toList "nowhere".toList ∧
    (∀ fuel, 2 ≤ fuel →
      canonicalPath false envCwd danglingFS fuel "/l/x".toList = some "/nowhere/x".toList) ∧
    "/nowhere/x".toList ≠ [] :=
  ⟨⟨by rfl, by rfl, by decide, by rfl⟩,
    fun fuel hf => canonicalPath_mono false envCwd danglingFS 2 _ _ (by rfl) fuel hf,
    by decide⟩

/-- C5 at a concrete input: at the dangling link `/l` the walk of `/l/x` splices `nowhere` in
and goes on with `/nowhere/x`. -/
theorem canonicalPath_dangling_link_witness :
    ∃ q, q = "/nowhere/x".toList ∧ q ≠ [] ∧
      walk false danglingFS [] (pathList "/l/x".toList) = Walk.spliced q ∧
      ∀ fuel, canonicalPath false envCwd danglingFS (fuel + 2) "/l/x".toList =
        scanLoop false danglingFS (fuel + 1) q :=
  canonicalPath_dangling_link envCwd danglingFS "/l".toList "nowhere".toList "/l/x".toList
    "/l/x".toList [[]] [] "l".toList ["x".toList]
    ⟨by rfl, by rfl, by decide, by rfl⟩ (by decide) (by rfl) (by rfl) (by rfl)
    ⟨by decide, by decide, by decide⟩ (by rfl)

/-! ### Paths as lists of segments -/

theorem rebuild_posix_append (a b : List Str) :
    rebuild false (a ++ b) = rebuild false a ++ rebuild false b := by
  induction b using List.reverseRecOn with
  | nil => simp [rebuild_nil]
  | append_singleton l c ih =>
    rw [← List.append_assoc, rebuild_posix_snoc, rebuild_posix_snoc, ih, List.append_assoc]

theorem rebuild_posix_singleton (x : Str) : rebuild false [x] = '/' :: x := by
  have := rebuild_posix_snoc [] x
  simpa [rebuild_nil] using this

theorem rebuild_posix_cons (x : Str) (xs : List Str) :
    rebuild false (x :: xs) = '/' :: x ++ rebuild false xs := by
  have := rebuild_posix_append [x] xs
  rw [rebuild_posix_singleton] at this
  simpa using this

theorem isGeneric_tail {c : Char} {a : Str} (h : IsGeneric (c :: a)) : IsGeneric a :=
  isGeneric_of_part h ( List.suffix_cons _ _).isInfix

/-- Collapsing slashes after a generic path that does not end in a slash leaves that path
alone. -/
theorem collapse_seam (a z : Str) (ha : IsGeneric a) (hl : a.getLast? ≠ some '/') :
    collapse (a ++ '/' :: z) = a ++ collapse ('/' :: z) := by
  induction a with
  | nil => rfl
  | cons c a' ih =>
    have hc : ¬ (c = '/' ∧ (a' ++ '/' :: z).head? = some '/') := by
      rintro ⟨h1, h2⟩
      cases a' with
      | nil => simp [h1] at hl
      | cons d a'' =>
        simp at h2
        have := ((isGeneric_iff _).mp ha).2
        rw [find_slashes_cons] at this
        simp [h1, h2] at this
    have hl' : a'.getLast? ≠ some '/' := by
      cases a' with
      | nil => simp
      | cons d a'' => rwa [List.getLast?_cons_cons] at hl
    rw [List.cons_append]
    conv_lhs => rw [collapse]
    rw [if_neg hc, ih (isGeneric_tail ha) hl', List.cons_append]

/-- A generic path that begins with a slash is a list of segments, each preceded by a slash,
with or without a final slash. -/
theorem exists_segments (n : Nat) (z : Str) (hn : z.length ≤ n) (hg : IsGeneric z)
    (hh : z.head? = some '/') :
    ∃ R t, (∀ s ∈ R, IsSegment s) ∧ (t = [] ∨ t = ['/']) ∧ z = rebuild false R ++ t := by
  induction n generalizing z with
  | zero =>
    have : z = [] := List.length_eq_zero.mp (Nat.le_zero.mp hn)
    subst this
    simp at hh
  | succ m ih =>
    cases z with
    | nil => simp at hh
    | cons c z' =>
      simp at hh
      subst hh
      have hg' : IsGeneric z' := isGeneric_tail hg
      cases hf : find ['/'] z' with
      | none =>
        have hs := find_slash_none z' hf
        by_cases h0 : z' = []
        · subst h0
          exact ⟨[], ['/'], by simp, Or.inr rfl, by simp [rebuild_nil]⟩
        · refine ⟨[z'], [], ?_, Or.inl rfl, by simp [rebuild_posix_singleton]⟩
          intro s hs'
          simp at hs'
          subst hs'
          exact ⟨h0, hs, hg'.1⟩
      | some k =>
        obtain ⟨h1, h2, h3⟩ := find_slash_some z' k hf
        have hk : z'.take k ≠ [] := by
          intro e
          rw [e] at h1
          have := ((isGeneric_iff _).mp hg).2
          rw [find_slashes_cons] at this
          rw [h1] at this
          simp at this
        have hsuf : ('/' :: z'.drop (k + 1)) <:+ '/' :: z' := by
          refine ⟨'/' :: z'.take k, ?_⟩
          conv_rhs => rw [h1]
          simp
        have hlen : ('/' :: z'.drop (k + 1)).length ≤ m := by
          simp only [List.length_cons, List.length_drop] at hn ⊢
          omega
        obtain ⟨R, t, hR, ht, hz⟩ := ih _ hlen (isGeneric_of_part hg hsuf.isInfix) rfl
        refine ⟨z'.take k :: R, t, ?_, ht, ?_⟩
        · intro s hs
          rcases List.mem_cons.mp hs with hs | hs
          · subst hs
            exact ⟨hk, h2, fun hm => hg'.1 (List.mem_of_mem_take hm)⟩
          · exact hR s hs
        · rw [rebuild_posix_cons, List.append_assoc, ← hz]
          conv_lhs => rw [h1]
          simp

theorem rebuild_posix_eq_intercalate (segs : List Str) :
    rebuild false segs = ['/'].intercalate ([] :: segs) := rfl

theorem trimLast_of_getLast {l : List Str} (h : l.getLast? ≠ some []) : trimLast l = l := by
  unfold trimLast
  rw [if_neg h]

theorem pathList_rebuild (segs : List Str) (t : Str) (h : ∀ s ∈ segs, IsSegment s)
    (h0 : segs ≠ []) (ht : t = [] ∨ t = ['/']) :
    pathList (rebuild false segs ++ t) = [] :: segs := by
  rw [pathList_eq]
  rcases ht with ht | ht
  · subst ht
    rw [List.append_nil, rebuild_posix_eq_intercalate, List.splitOn_intercalate]
    · apply trimLast_of_getLast
      obtain ⟨l, c, hc⟩ : ∃ l c, segs = l ++ [c] := by
        rcases List.eq_nil_or_concat segs with e | ⟨l, c, e⟩
        · exact absurd e h0
        · exact ⟨l, c, by rw [e, List.concat_eq_append]⟩
      subst hc
      rw [← List.cons_append, List.getLast?_concat]
      intro e
      simp only [Option.some.injEq] at e
      exact (h c (by simp)).1 e
    · intro l hl
      rcases List.mem_cons.mp hl with hl | hl
      · subst hl; simp
      · exact (h l hl).2.1
    · simp
  · subst ht
    have e : rebuild false segs ++ ['/'] = ['/'].intercalate (([] :: segs) ++ [[]]) := by
      rw [intercalate_snoc]
      simp [rebuild_posix_eq_intercalate]
    rw [e, List.splitOn_intercalate]
    · unfold trimLast
      rw [List.getLast?_concat, if_pos rfl, List.dropLast_concat]
    · intro l hl
      by_cases hl0 : l = []
      · subst hl0; simp
      · have : l ∈ segs := by simpa [hl0] using hl
        exact (h l this).2.1
    · simp

theorem reappend_eq (path : Str) (rest : List Str) (h : path ≠ []) :
    reappend path rest = path ++ rebuild false rest := by
  induction rest generalizing path with
  | nil => simp [reappend, rebuild_nil]
  | cons it r ih =>
    have hne : path.length ≠ 0 := fun e => h (List.length_eq_zero.mp e)
    have e : reappend path (it :: r) = reappend (path ++ (['/'] ++ it)) r := by
      unfold reappend
      rw [List.foldl_cons, if_neg hne]
    rw [e, ih _ (by simp), rebuild_posix_cons]
    simp

/-! ### A single link whose text is `..` -/

theorem isSymlink_onlyLink (fs : FS) (link text q : Str) (hfs : OnlyLink fs link text)
    (h : isSymlink false fs q = true) : cstr (genericPath q) = link := by
  unfold isSymlink at h
  simp only [Bool.false_eq_true, if_false] at h
  cases hl : fs.lstat (cstr (genericPath q)) with
  | none => rw [hl] at h; simp at h
  | some info =>
    rw [hl] at h
    simp only [decide_eq_true_eq] at h
    exact hfs.2.2 _ info hl h

theorem isSegment_dotdot : IsSegment ['.', '.'] := by
  refine ⟨by decide, by decide, by decide⟩

theorem ordinary_append (a b : List Str) : ordinary (a ++ b) = ordinary a + ordinary b := by
  unfold ordinary
  rw [List.countP_append]

theorem ordinary_le (a : List Str) : ordinary a ≤ a.length := List.countP_le_length _

theorem ordinary_cons_keep (it : Str) (rest : List Str) (h1 : it ≠ ['.'])
    (h2 : it ≠ ['.', '.']) : ordinary (it :: rest) = ordinary rest + 1 := by
  unfold ordinary
  rw [List.countP_cons_of_pos]
  simp [h1, h2]

theorem ordinary_cons_le (it : Str) (rest : List Str) : ordinary rest ≤ ordinary (it :: rest) := by
  unfold ordinary
  rw [List.countP_cons]
  omega

theorem nextPath_rebuild (st : List Str) (it : Str) :
    nextPath false (rebuild false st) it = rebuild false (st ++ [it]) := by
  rw [rebuild_posix_snoc]
  simp [nextPath]

/-- The step of the walk at the link whose text is `..`: the link is replaced by `..` and the
walk restarts on the path so obtained. -/
theorem walk_hit (fs : FS) (link : Str) (hfs : OnlyLink fs link ['.', '.']) (st : List Str)
    (it : Str) (rest : List Str) (hst : ∀ s ∈ st, IsSegment s) (hit : IsSegment it)
    (h1 : it ≠ ['.']) (h2 : it ≠ ['.', '.'])
    (hl : cstr (genericPath (rebuild false (st ++ [it]))) = link) :
    walk false fs (rebuild false st) (it :: rest) =
      Walk.spliced (rebuild false (st ++ [['.', '.']] ++ rest)) := by
  rw [rebuild_posix_snoc] at hl
  have hw := walk_at_link fs link ['.', '.'] (rebuild false st) it rest ⟨hit.1, h1, h2⟩ hl
    hfs.1 hfs.2.1 (by decide) (by decide)
  have e1 : genericPath ['.', '.'] = ['.', '.'] := by rfl
  have e2 : isAbsolute false ['.', '.'] = false := by rfl
  obtain ⟨g1, g2⟩ := rebuild_isGeneric false st hst
  rw [e1, e2, getParent_append_segment g1 g2 hit] at hw
  rw [hw, reappend_eq _ _ (by simp)]
  simp only [Bool.false_eq_true, if_false]
  rw [rebuild_posix_append, rebuild_posix_snoc]
  simp

/-- On a filesystem whose only link has the text `..`, a walk either runs to its end or
restarts on a path with fewer segments other than `.` and `..`; it never fails. -/
theorem walk_onlyLink (fs : FS) (link : Str) (hfs : OnlyLink fs link ['.', '.'])
    (segs : List Str) (st : List Str)
    (hst : ∀ s ∈ st, IsSegment s ∧ s ≠ ['.'] ∧ s ≠ ['.', '.'])
    (hsegs : ∀ s ∈ segs, IsSegment s) :
    (∃ r, walk false fs (rebuild false st) segs = Walk.done r) ∨
    (∃ segs2, (∀ s ∈ segs2, IsSegment s) ∧ segs2 ≠ [] ∧
      ordinary segs2 < st.length + ordinary segs ∧
      walk false fs (rebuild false st) segs = Walk.spliced (rebuild false segs2)) := by
  induction segs generalizing st with
  | nil => exact Or.inl ⟨_, rfl⟩
  | cons it rest ih =>
    have hrest : ∀ s ∈ rest, IsSegment s := fun s hs => hsegs s (by simp [hs])
    have hit : IsSegment it := hsegs it (by simp)
    have hst1 : ∀ s ∈ st, IsSegment s := fun s hs => (hst s hs).1
    have h0 : it.length ≠ 0 := fun e => hit.1 (List.length_eq_zero.mp e)
    have hmono := ordinary_cons_le it rest
    by_cases h1 : it = ['.']
    · rw [walk, if_neg h0, if_pos h1]
      rcases ih st hst hrest with h | ⟨s2, a, b, c, d⟩
      · exact Or.inl h
      · exact Or.inr ⟨s2, a, b, by omega, d⟩
    · by_cases h2 : it = ['.', '.']
      · rw [walk, if_neg h0, if_neg h1, if_pos h2, getParent_rebuild false st hst1]
        have hn := stackStepOf_isSegment false st ['.', '.'] hst ⟨by decide, by decide⟩
        have hlen : (stackStepOf false st ['.', '.']).length ≤ st.length := by
          rw [stackStepOf_dotdot]
          simp
        rcases ih _ hn hrest with h | ⟨s2, a, b, c, d⟩
        · exact Or.inl h
        · exact Or.inr ⟨s2, a, b, by omega, d⟩
      · have hord := ordinary_cons_keep it rest h1 h2
        by_cases h3 : isSymlink false fs (nextPath false (rebuild false st) it) = true
        · have hl := isSymlink_onlyLink fs link _ _ hfs h3
          rw [nextPath_rebuild] at hl
          refine Or.inr ⟨st ++ [['.', '.']] ++ rest, ?_, by simp, ?_,
            walk_hit fs link hfs st it rest hst1 hit h1 h2 hl⟩
          · intro s hs
            simp only [List.mem_append, List.mem_singleton] at hs
            rcases hs with (hs | hs) | hs
            · exact hst1 s hs
            · subst hs; exact isSegment_dotdot
            · exact hrest s hs
          · rw [ordinary_append, ordinary_append]
            have e : ordinary [['.', '.']] = 0 := by decide
            have := ordinary_le st
            omega
        · rw [walk_cons_keep false fs _ it rest h0 h1 h2, if_neg h3, nextPath_rebuild]
          have hn : ∀ s ∈ st ++ [it], IsSegment s ∧ s ≠ ['.'] ∧ s ≠ ['.', '.'] := by
            intro s hs
            rcases List.mem_append.mp hs with hs | hs
            · exact hst s hs
            · simp at hs
              subst hs
              exact ⟨hit, h1, h2⟩
          rcases ih _ hn hrest with h | ⟨s2, a, b, c, d⟩
          · exact Or.inl h
          · refine Or.inr ⟨s2, a, b, ?_, d⟩
            simp only [List.length_append, List.length_singleton] at c
            omega

theorem walk_nil_cons (win : Bool) (fs : FS) (path : Str) (segs : List Str) :
    walk win fs path ([] :: segs) = walk win fs path segs := by
  rw [walk]
  simp

/-- On a filesystem whose only link has the text `..`, the scan loop of `canonicalPath` ends:
one round more than there are segments other than `.` and `..` is enough. -/
theorem scanLoop_onlyLink (fs : FS) (link : Str) (hfs : OnlyLink fs link ['.', '.']) (m : Nat) :
    ∀ (segs : List Str) (p : Str), (∀ s ∈ segs, IsSegment s) → ordinary segs ≤ m →
      pathList p = [] :: segs →
      ∃ r, ∀ fuel, m + 1 ≤ fuel → scanLoop false fs fuel p = some r := by
  induction m with
  | zero =>
    intro segs p hsegs hm hp
    have hw := walk_onlyLink fs link hfs segs [] (fun s hs => by simp at hs) hsegs
    rw [rebuild_nil, ← walk_nil_cons false fs [] segs, ← hp] at hw
    rcases hw with ⟨r, hr⟩ | ⟨s2, _, _, c, _⟩
    · refine ⟨r, fun fuel hf => ?_⟩
      obtain ⟨k, rfl⟩ : ∃ k, fuel = k + 1 := ⟨fuel - 1, by omega⟩
      exact scanLoop_of_done false fs k p r hr
    · simp only [List.length_nil] at c
      omega
  | succ m ih =>
    intro segs p hsegs hm hp
    have hw := walk_onlyLink fs link hfs segs [] (fun s hs => by simp at hs) hsegs
    rw [rebuild_nil, ← walk_nil_cons false fs [] segs, ← hp] at hw
    rcases hw with ⟨r, hr⟩ | ⟨s2, a, b, c, d⟩
    · refine ⟨r, fun fuel hf => ?_⟩
      obtain ⟨k, rfl⟩ : ∃ k, fuel = k + 1 := ⟨fuel - 1, by omega⟩
      exact scanLoop_of_done false fs k p r hr
    · simp only [List.length_nil] at c
      have hp2 : pathList (rebuild false s2) = [] :: s2 := by
        have := pathList_rebuild s2 [] a b (Or.inl rfl)
        simpa using this
      obtain ⟨r, hr⟩ := ih s2 (rebuild false s2) a (by omega) hp2
      refine ⟨r, fun fuel hf => ?_⟩
      obtain ⟨k, rfl⟩ : ∃ k, fuel = k + 1 := ⟨fuel - 1, by omega⟩
      rw [scanLoop_of_spliced false fs k p _ d]
      exact hr k (by omega)

theorem not_mem_rebuild (c : Char) (hc : c ≠ '/') (x : List Str) (h : ∀ s ∈ x, c ∉ s) :
    c ∉ rebuild false x := by
  induction x with
  | nil => simp [rebuild_nil]
  | cons a t ih =>
    rw [rebuild_posix_cons]
    simp only [List.cons_append, List.mem_cons, List.mem_append, not_or]
    exact ⟨hc, h a (by simp), ih (fun s hs => h s (by simp [hs]))⟩

theorem IsName.isSegment {d : Str} (h : IsName d) : IsSegment d := ⟨h.1, h.2.2.2.1, h.2.2.2.2.1⟩

/-- The walk over the directories above the link meets no link. -/
theorem walk_names (fs : FS) (link : Str) (hfs : OnlyLink fs link ['.', '.']) (ds : List Str)
    (n : Str) (hds : ∀ d ∈ ds, IsName d) (hlink : link = rebuild false (ds ++ [n]))
    (tail : List Str) :
    ∀ suf pre, pre ++ suf = ds →
      walk false fs (rebuild false pre) (suf ++ tail) = walk false fs (rebuild false ds) tail := by
  intro suf
  induction suf with
  | nil =>
    intro pre h
    simp at h
    subst h
    rfl
  | cons d suf2 ih =>
    intro pre h
    have hd : IsName d := hds d (by rw [← h]; simp)
    have hpre : ∀ s ∈ pre ++ [d], IsName s := by
      intro s hs
      apply hds
      rw [← h]
      rcases List.mem_append.mp hs with hs | hs
      · simp [hs]
      · simp at hs
        simp [hs]
    have h0 : d.length ≠ 0 := fun e => hd.1 (List.length_eq_zero.mp e)
    rw [List.cons_append, walk_cons_keep false fs _ d _ h0 hd.2.1 hd.2.2.1, nextPath_rebuild]
    have hns : ¬ isSymlink false fs (rebuild false (pre ++ [d])) = true := by
      intro hs
      have hl := isSymlink_onlyLink fs link _ _ hfs hs
      have hg := (rebuild_isGeneric false (pre ++ [d]) (fun s hs => (hpre s hs).isSegment)).1
      rw [genericPath_of_isGeneric _ hg, cstr_of_not_mem _
        (not_mem_rebuild NUL nul_ne_slash _ (fun s hs => (hpre s hs).2.2.2.2.2)), hlink] at hl
      have e : ds ++ [n] = (pre ++ [d]) ++ (suf2 ++ [n]) := by
        rw [← h]
        simp
      rw [e, rebuild_posix_append (pre ++ [d]) (suf2 ++ [n])] at hl
      have hnil : rebuild false (suf2 ++ [n]) = [] := by
        have := congrArg List.length hl
        simp only [List.length_append] at this
        exact List.length_eq_zero.mp (by omega)
      rw [rebuild_posix_snoc] at hnil
      simp at hnil
    rw [if_neg hns]
    exact ih (pre ++ [d]) (by rw [← h]; simp)

theorem rebuild_append_head (ds : List Str) (y : Str) :
    (rebuild false ds ++ '/' :: y).head? = some '/' := by
  cases ds with
  | nil => simp [rebuild_nil]
  | cons a t => simp [rebuild_posix_cons]

theorem collapse_two_slashes (y : Str) : collapse ('/' :: '/' :: y) = collapse ('/' :: y) := by
  conv_lhs => rw [collapse]
  simp

/-- The normal form of `D/x/r` for a directory path `D`, written with or without a final slash,
and a segment `x`. -/
theorem genericPath_under (ds : List Str) (d x r : Str) (hds : ∀ s ∈ ds, IsSegment s)
    (hd : d = rebuild false ds ∨ d = rebuild false ds ++ ['/']) (hx : IsSegment x) :
    genericPath (d ++ ['/'] ++ x ++ ['/'] ++ r) =
      rebuild false (ds ++ [x]) ++ collapse ('/' :: r.map toSlash) := by
  have hall : ∀ s ∈ ds ++ [x], IsSegment s := by
    intro s hs
    rcases List.mem_append.mp hs with hs | hs
    · exact hds s hs
    · simp at hs
      subst hs
      exact hx
  obtain ⟨g1, g2⟩ := rebuild_isGeneric false (ds ++ [x]) hall
  have hb : (rebuild false ds).map toSlash = rebuild false ds :=
    map_toSlash_of_not_mem _ (not_mem_rebuild '\\' (by decide) ds (fun s hs => (hds s hs).2.2))
  have hxb : x.map toSlash = x := map_toSlash_of_not_mem _ hx.2.2
  have e : toSlash '/' = '/' := by decide
  have key : collapse (rebuild false ds ++ '/' :: (x ++ '/' :: r.map toSlash)) =
      rebuild false (ds ++ [x]) ++ collapse ('/' :: r.map toSlash) := by
    rw [← collapse_seam _ _ g1 g2, rebuild_posix_snoc]
    simp
  rcases hd with hd | hd
  · subst hd
    have hs : rebuild false ds ++ ['/'] ++ x ++ ['/'] ++ r =
        rebuild false ds ++ '/' :: (x ++ '/' :: r) := by simp
    rw [hs, genericPath_of_not_mark _
      (mark_isPrefixOf_false_of_head (rebuild_append_head ds _) (by decide))]
    simp only [List.map_append, List.map_cons, hb, hxb, e]
    exact key
  · subst hd
    have hs : rebuild false ds ++ ['/'] ++ ['/'] ++ x ++ ['/'] ++ r =
        rebuild false ds ++ '/' :: ('/' :: (x ++ '/' :: r)) := by simp
    rw [hs, genericPath_of_not_mark _
      (mark_isPrefixOf_false_of_head (rebuild_append_head ds _) (by decide))]
    simp only [List.map_append, List.map_cons, hb, hxb, e]
    rw [← collapse_append_right, collapse_two_slashes, collapse_append_right]
    exact key

theorem isAbsolute_posix_of_head (p : Str) (h : (genericPath p).head? = some '/') :
    isAbsolute false p = true := by
  unfold isAbsolute
  cases hg : genericPath p with
  | nil => rw [hg] at h; simp at h
  | cons c r =>
    rw [hg] at h
    simp at h
    simp [charAt, h]

theorem canonicalPath_of_absolute (env : Env) (fs : FS) (fuel : Nat) (p : Str)
    (hcwd : isAbsolute false (getCWDPath env) = true) (hp : isAbsolute false p = true) :
    canonicalPath false env fs (fuel + 1) p = scanLoop false fs (fuel + 1) (genericPath p) := by
  unfold canonicalPath defaultBase
  rw [absolutePath_of_absolute_base false env fuel p _ hcwd, if_pos hp, Option.some_bind]

/-! ### C6 -/

/-- C6: symlink substitution, in the branch without drive letters.  Let the only symbolic link
of the filesystem be `D/n`, with the link text `..`, where `D` is the path of the directories
`ds` (written with or without a final slash) and `n` and the names in `ds` are file names.  For
every remainder `r`, `canonicalPath(D/n/r)` and `canonicalPath(D/../r)` are the same: when the
working directory is absolute both return the same path (from some number of rounds on), and
otherwise neither returns. -/
theorem canonicalPath_link_substitution (env : Env) (fs : FS) (ds : List Str) (d n r : Str)
    (hds : ∀ s ∈ ds, IsName s) (hn : IsName n)
    (hd : d = rebuild false ds ∨ d = rebuild false ds ++ ['/'])
    (hfs : OnlyLink fs (rebuild false (ds ++ [n])) ['.', '.']) :
    (isAbsolute false (getCWDPath env) = true →
      ∃ res fuel0, ∀ fuel, fuel0 ≤ fuel →
        canonicalPath false env fs fuel (d ++ ['/'] ++ n ++ ['/'] ++ r) = some res ∧
        canonicalPath false env fs fuel (d ++ ['/'] ++ ['.', '.'] ++ ['/'] ++ r) = some res) ∧
    (isAbsolute false (getCWDPath env) = false →
      ∀ fuel, canonicalPath false env fs fuel (d ++ ['/'] ++ n ++ ['/'] ++ r) = none ∧
        canonicalPath false env fs fuel (d ++ ['/'] ++ ['.', '.'] ++ ['/'] ++ r) = none) := by
  constructor
  · intro hcwd
    have hdsS : ∀ s ∈ ds, IsSegment s := fun s hs => (hds s hs).isSegment
    -- the normalised remainder, cut into segments
    have hZg : IsGeneric (collapse ('/' :: r.map toSlash)) := by
      have := collapse_map_isGeneric ('/' :: r)
      have e : toSlash '/' = '/' := by decide
      simpa [e] using this
    have hZh : (collapse ('/' :: r.map toSlash)).head? = some '/' := by
      rw [collapse_head]; rfl
    obtain ⟨R, t, hR, ht, hZ⟩ := exists_segments _ _ (le_refl _) hZg hZh
    -- the two normalised paths and their segment lists
    have hG : ∀ x, IsSegment x → genericPath (d ++ ['/'] ++ x ++ ['/'] ++ r) =
        rebuild false (ds ++ [x] ++ R) ++ t := by
      intro x hx
      rw [genericPath_under ds d x r hdsS hd hx, hZ, rebuild_posix_append (ds ++ [x]) R,
        List.append_assoc]
    have hsegs : ∀ x, IsSegment x → ∀ s ∈ ds ++ [x] ++ R, IsSegment s := by
      intro x hx s hs
      simp only [List.mem_append, List.mem_singleton] at hs
      rcases hs with (hs | hs) | hs
      · exact hdsS s hs
      · subst hs; exact hx
      · exact hR s hs
    have hpl : ∀ x, IsSegment x →
        pathList (genericPath (d ++ ['/'] ++ x ++ ['/'] ++ r)) = [] :: (ds ++ [x] ++ R) := by
      intro x hx
      rw [hG x hx]
      exact pathList_rebuild _ t (hsegs x hx) (by simp) ht
    have habs : ∀ x, IsSegment x → isAbsolute false (d ++ ['/'] ++ x ++ ['/'] ++ r) = true := by
      intro x hx
      apply isAbsolute_posix_of_head
      rw [hG x hx, rebuild_posix_append, rebuild_posix_append, List.append_assoc,
        List.append_assoc, rebuild_posix_singleton, List.cons_append]
      exact rebuild_append_head ds _
    -- the scan of `D/../r` ends
    obtain ⟨res, hres⟩ := scanLoop_onlyLink fs _ hfs (ordinary (ds ++ [['.', '.']] ++ R))
      (ds ++ [['.', '.']] ++ R) _ (hsegs _ isSegment_dotdot) (le_refl _)
      (hpl _ isSegment_dotdot)
    -- the first walk of `D/n/r` stops at the link and restarts on `D/../r`
    have hlink : cstr (genericPath (rebuild false (ds ++ [n]))) = rebuild false (ds ++ [n]) := by
      have hall : ∀ s ∈ ds ++ [n], IsName s := by
        intro s hs
        rcases List.mem_append.mp hs with hs | hs
        · exact hds s hs
        · simp at hs
          subst hs
          exact hn
      rw [genericPath_of_isGeneric _
        (rebuild_isGeneric false _ (fun s hs => (hall s hs).isSegment)).1]
      exact cstr_of_not_mem _
        (not_mem_rebuild NUL nul_ne_slash _ (fun s hs => (hall s hs).2.2.2.2.2))
    have hwalk : walk false fs [] (pathList (genericPath (d ++ ['/'] ++ n ++ ['/'] ++ r))) =
        Walk.spliced (rebuild false (ds ++ [['.', '.']] ++ R)) := by
      rw [hpl n hn.isSegment, walk_nil_cons, List.append_assoc]
      have := walk_names fs _ hfs ds n hds rfl ([n] ++ R) ds [] (by simp)
      rw [rebuild_nil] at this
      rw [this]
      exact walk_hit fs _ hfs ds n R hdsS hn.isSegment hn.2.1 hn.2.2.1 hlink
    have hpl2 : pathList (rebuild false (ds ++ [['.', '.']] ++ R)) =
        pathList (genericPath (d ++ ['/'] ++ ['.', '.'] ++ ['/'] ++ r)) := by
      rw [hpl _ isSegment_dotdot]
      have := pathList_rebuild (ds ++ [['.', '.']] ++ R) [] (hsegs _ isSegment_dotdot)
        (by simp) (Or.inl rfl)
      simpa using this
    refine ⟨res, ordinary (ds ++ [['.', '.']] ++ R) + 2, fun fuel hf => ?_⟩
    obtain ⟨k, rfl⟩ : ∃ k, fuel = k + 1 := ⟨fuel - 1, by omega⟩
    rw [canonicalPath_of_absolute env fs k _ hcwd (habs n hn.isSegment),
      canonicalPath_of_absolute env fs k _ hcwd (habs _ isSegment_dotdot)]
    refine ⟨?_, hres (k + 1) (by omega)⟩
    rw [scanLoop_of_spliced false fs k _ _ hwalk, scanLoop_congr false fs k _ _ hpl2]
    exact hres k (by omega)
  · intro hcwd fuel
    unfold canonicalPath defaultBase
    rw [absolutePath_none_of_relative false env fuel _ _ hcwd hcwd,
      absolutePath_none_of_relative false env fuel _ _ hcwd hcwd]
    exact ⟨rfl, rfl⟩

/-- C6 at the input of the claim: with the link `/a/b/l` whose text is `..`,
`canonicalPath("/a/b/l/c")` and `canonicalPath("/a/b/../c")` agree; both are `/a/c`. -/
theorem canonicalPath_link_substitution_witness :
    (∃ res fuel0, ∀ fuel, fuel0 ≤ fuel →
      canonicalPath false envCwd linkFS fuel "/a/b/l/c".toList = some res ∧
      canonicalPath false envCwd linkFS fuel "/a/b/../c".toList = some res) ∧
    canonicalPath false envCwd linkFS 2 "/a/b/l/c".toList = some "/a/c".toList ∧
    canonicalPath false envCwd linkFS 2 "/a/b/../c".toList = some "/a/c".toList :=
  ⟨(canonicalPath_link_substitution envCwd linkFS ["a".toList, "b".toList] "/a/b".toList
      "l".toList "c".toList
      (by
        intro s hs
        simp only [List.mem_cons, List.mem_singleton, List.not_mem_nil, or_false] at hs
        rcases hs with hs | hs <;> subst hs <;>
          exact ⟨by decide, by decide, by decide, by decide, by decide, by decide⟩)
      ⟨by decide, by decide, by decide, by decide, by decide, by decide⟩
      (Or.inl (by rfl))
      ⟨by rfl, by rfl, by
        intro q info h1 h2
        simp only [linkFS] at h1
        split at h1
        · assumption
        · split at h1
          · simp only [Option.some.injEq] at h1
            subst h1
            exact absurd h2 (by decide)
          · exact Option.noConfusion h1⟩).1 (by rfl),
    by rfl, by rfl⟩

/-! ### C11 -/

theorem charAt_zero_eq_iff (s : Str) (c : Char) (hc : c ≠ NUL) :
    charAt s 0 = c ↔ s.head? = some c := by
  cases s with
  | nil =>
    simp only [charAt, List.getD_nil, List.head?_nil]
    constructor
    · intro e; exact absurd e.symm hc
    · intro e; exact Option.noConfusion e
  | cons d r => simp [charAt]

/-- C11: for every path whose normalised form is empty or begins with neither `.` nor, when
`allowHome` is set, `~`, `resolvePath` returns `genericPath(path)` whatever `relativeTo` and the
filesystem are; so the result is absolute only if the path was, and the empty path resolves to
the empty path. -/
theorem resolvePath_unchanged (win : Bool) (env : Env) (fs : FS) (cached p relativeTo : Str)
    (allowHome : Bool)
    (h : genericPath p = [] ∨ ((genericPath p).head? ≠ some '.' ∧
      (allowHome = true → (genericPath p).head? ≠ some '~'))) :
    resolvePath win env fs cached p relativeTo allowHome = some (genericPath p) ∧
    (resolvePath win env fs cached p relativeTo allowHome).map (isAbsolute win) =
      some (isAbsolute win p) ∧
    resolvePath win env fs cached [] relativeTo allowHome = some [] := by
  have h0 : resolvePath win env fs cached [] relativeTo allowHome = some [] := by
    have e : genericPath [] = [] := by rfl
    unfold resolvePath
    simp [e]
  have h1 : resolvePath win env fs cached p relativeTo allowHome = some (genericPath p) := by
    unfold resolvePath
    simp only
    rcases h with h | ⟨hd, hh⟩
    · rw [h]; simp
    · split
      · rfl
      · rw [if_neg (fun e => hd ((charAt_zero_eq_iff _ '.' (by decide)).mp e))]
        rw [if_neg]
        intro hc
        simp only [Bool.and_eq_true, beq_iff_eq] at hc
        exact absurd ((charAt_zero_eq_iff _ '~' (by decide)).mp hc.2) (hh hc.1)
  exact ⟨h1, by rw [h1, Option.map_some', isAbsolute_genericPath], h0⟩

/-- C11 at concrete inputs: the relative path `foo/bar` stays `foo/bar` and is not absolute; with
`allowHome` unset `~/foo` stays `~/foo`. -/
theorem resolvePath_unchanged_witness :
    resolvePath false envCwd dirFS [] "foo/bar".toList "/r".toList true =
      some "foo/bar".toList ∧
    (resolvePath false envCwd dirFS [] "foo/bar".toList "/r".toList true).map
      (isAbsolute false) = some false ∧
    resolvePath false envNoHome dirFS [] "~/foo".toList "/r".toList false =
      some "~/foo".toList :=
  ⟨((resolvePath_unchanged false envCwd dirFS [] "foo/bar".toList "/r".toList true
      (Or.inr ⟨by decide, fun _ => by decide⟩)).1).trans (by rfl),
    ((resolvePath_unchanged false envCwd dirFS [] "foo/bar".toList "/r".toList true
      (Or.inr ⟨by decide, fun _ => by decide⟩)).2.1).trans (by rfl),
    ((resolvePath_unchanged false envNoHome dirFS [] "~/foo".toList "/r".toList false
      (Or.inr ⟨by decide, fun h => Bool.noConfusion h⟩)).1).trans (by rfl)⟩

/-! ### C18 -/

theorem getFileName_genericPath (p : Str) : getFileName (genericPath p) = getFileName p := by
  unfold getFileName
  rw [genericPath_idem]

theorem collapse_getLast (s : Str) : (collapse s).getLast? = s.getLast? := by
  induction s with
  | nil => rfl
  | cons c r ih =>
    unfold collapse
    split
    · rename_i h
      cases r with
      | nil => simp at h
      | cons d t => rw [ih, List.getLast?_cons_cons]
    · cases hr : collapse r with
      | nil =>
        have : r = [] := (collapse_eq_nil_iff r).mp hr
        subst this
        rfl
      | cons d t =>
        cases r with
        | nil => simp [collapse] at hr
        | cons e u =>
          rw [List.getLast?_cons_cons, List.getLast?_cons_cons, ← hr, ih]

theorem genericPath_getLast (p : Str) (h : p.getLast? = some '/') :
    (genericPath p).getLast? = some '/' := by
  have h1 : (stripMark p).getLast? = some '/' := by
    unfold stripMark
    split
    · rename_i hm
      have hp : extendedLengthMark <+: p :=
        List.isPrefixOf_iff_prefix.mp ((find_eq_zero_iff _ _).mp hm)
      obtain ⟨t, rfl⟩ := hp
      have ht : t ≠ [] := by
        intro e
        subst e
        simp [extendedLengthMark] at h
      have e : erase (extendedLengthMark ++ t) 0 4 = t := by
        simp [erase, extendedLengthMark]
      rw [e]
      rw [List.getLast?_append_of_ne_nil _ ht] at h
      exact h
    · exact h
  rw [genericPath_eq, collapse_getLast, List.getLast?_map, h1]
  rfl

theorem getFileName_of_trailing_slash (p : Str) (h : p.getLast? = some '/') :
    getFileName p = ['.'] := by
  have hg := genericPath_getLast p h
  obtain ⟨a, ha⟩ := List.getLast?_eq_some_iff.mp hg
  unfold getFileName
  simp only
  rw [ha, find_last_of_append '/' a [] (by simp)]
  have e : charAt (a ++ ['/']) (a.length + 1) = NUL := by
    unfold charAt
    rw [List.getD_eq_default]
    simp
  simp [e]

/-- C18: in both branches `isHidden(path)` is true whenever `getFileName(path)` begins with
`.`, whatever the filesystem holds; in the branch without drive letters it is true exactly
then; and every path that ends in a slash has the file name `.` and is reported hidden. -/
theorem isHidden_dot_file (win : Bool) (fs : FS) (p : Str) :
    ((getFileName p).head? = some '.' → isHidden win fs p = true) ∧
    (isHidden false fs p = true ↔ (getFileName p).head? = some '.') ∧
    (p.getLast? = some '/' → getFileName p = ['.'] ∧ isHidden win fs p = true) := by
  have key : (getFileName p).head? = some '.' → isHidden win fs p = true := by
    intro h
    unfold isHidden
    simp only [getFileName_genericPath]
    rw [if_pos ((charAt_zero_eq_iff _ '.' (by decide)).mpr h)]
    simp
  refine ⟨key, ?_, fun h => ?_⟩
  · unfold isHidden
    simp only [getFileName_genericPath, Bool.false_eq_true, if_false]
    rw [← charAt_zero_eq_iff _ '.' (by decide)]
    by_cases hc : charAt (getFileName p) 0 = '.'
    · simp [hc]
    · simp [hc]
  · have e := getFileName_of_trailing_slash p h
    exact ⟨e, key (by rw [e]; rfl)⟩

/-- C18 at the input of the claim: `isHidden("/x/.foo")` is true in both branches on a
filesystem that holds no file, and so is `isHidden("/x/")`. -/
theorem isHidden_dot_file_witness :
    isHidden false emptyFS "/x/.foo".toList = true ∧
    isHidden true emptyFS "/x/.foo".toList = true ∧
    isHidden false emptyFS "/x/".toList = true ∧
    isHidden false emptyFS "/x/foo".toList = false :=
  ⟨(isHidden_dot_file false emptyFS "/x/.foo".toList).1 (by rfl),
    (isHidden_dot_file true emptyFS "/x/.foo".toList).1 (by rfl),
    ((isHidden_dot_file false emptyFS "/x/".toList).2.2 (by rfl)).2, by rfl⟩

/-! ### The last occurrence of a character -/

theorem find_last_of_eq_none (c : Char) (s : Str) (h : find_last_of c s = none) : c ∉ s := by
  induction s with
  | nil => simp
  | cons d r ih =>
    unfold find_last_of at h
    cases hr : find_last_of c r with
    | some i => rw [hr] at h; simp at h
    | none =>
      rw [hr] at h
      simp only at h
      by_cases hd : d = c
      · rw [if_pos hd] at h; exact Option.noConfusion h
      · simp only [List.mem_cons, not_or]
        exact ⟨fun e => hd e.symm, ih hr⟩

theorem find_last_of_some (c : Char) (s : Str) (k : Nat) (h : find_last_of c s = some k) :
    s = s.take k ++ c :: s.drop (k + 1) ∧ c ∉ s.drop (k + 1) ∧ k < s.length := by
  induction s generalizing k with
  | nil => simp [find_last_of] at h
  | cons d r ih =>
    unfold find_last_of at h
    cases hr : find_last_of c r with
    | some i =>
      rw [hr] at h
      simp only [Option.some.injEq] at h
      subst h
      obtain ⟨h1, h2, h3⟩ := ih i hr
      refine ⟨?_, ?_, ?_⟩
      · simp only [List.take_succ_cons, List.drop_succ_cons, List.cons_append]
        rw [← h1]
      · simpa using h2
      · simp only [List.length_cons]; omega
    | none =>
      rw [hr] at h
      simp only at h
      by_cases hd : d = c
      · rw [if_pos hd] at h
        simp only [Option.some.injEq] at h
        subst h
        subst hd
        exact ⟨by simp, by simpa using find_last_of_eq_none _ _ hr, by simp⟩
      · rw [if_neg hd] at h; exact Option.noConfusion h

theorem find_last_of_of_mem (c : Char) (s : Str) (h : c ∈ s) : ∃ k, find_last_of c s = some k := by
  cases hf : find_last_of c s with
  | some k => exact ⟨k, rfl⟩
  | none => exact absurd h (find_last_of_eq_none c s hf)

/-! ### C12 -/

/-- C12 (amended): for every generic path `p` that holds a slash, does not end in a slash and
holds no NUL character, `getParent(p) + "/" + getFileName(p)` is `p` itself, and so is its
normal form. -/
theorem parent_fileName_roundtrip (p : Str) (hg : IsGeneric p) (hs : '/' ∈ p)
    (hl : p.getLast? ≠ some '/') (hn : NUL ∉ p) :
    getParent p ++ ['/'] ++ getFileName p = p ∧
    genericPath (getParent p ++ ['/'] ++ getFileName p) = p := by
  have hgp : genericPath p = p := genericPath_of_isGeneric p hg
  obtain ⟨k, hk⟩ := find_last_of_of_mem '/' p hs
  obtain ⟨h1, h2, h3⟩ := find_last_of_some '/' p k hk
  have hd : p.drop (k + 1) ≠ [] := by
    intro e
    rw [e] at h1
    apply hl
    rw [h1]
    simp
  have hc : charAt p (k + 1) ≠ NUL := by
    intro e
    cases hdr : p.drop (k + 1) with
    | nil => exact hd hdr
    | cons c t =>
      have hget : p[k + 1]? = some c := by
        have := List.head?_drop p (k + 1)
        rw [hdr] at this
        simpa using this.symm
      have : charAt p (k + 1) = c := by simp [charAt, hget]
      rw [this] at e
      apply hn
      rw [← e]
      exact List.mem_of_mem_drop (by rw [hdr]; simp)
  have e1 : getParent p = p.take k := by
    unfold getParent
    simp only [hgp, hk]
  have e2 : getFileName p = p.drop (k + 1) := by
    unfold getFileName
    simp only [hgp, hk, if_neg hc]
  have e : getParent p ++ ['/'] ++ getFileName p = p := by
    rw [e1, e2]
    conv_rhs => rw [h1]
    simp
  exact ⟨e, by rw [e, hgp]⟩

/-- C12, as stated, fails for a path without a slash: `foo` is generic, has one segment and
does not end in a slash, but `getParent` and `getFileName` both return `foo`, and the round trip
gives `foo/foo`.  It also fails when a NUL character follows the last slash, where the file name
is `.`. -/
theorem parent_fileName_roundtrip_counterexample :
    (IsGeneric "foo".toList ∧ "foo".toList.getLast? ≠ some '/' ∧
      genericPath (getParent "foo".toList ++ ['/'] ++ getFileName "foo".toList) =
        "foo/foo".toList ∧ "foo/foo".toList ≠ "foo".toList) ∧
    (IsGeneric ['a', '/', NUL, 'b'] ∧ ['a', '/', NUL, 'b'].getLast? ≠ some '/' ∧
      genericPath (getParent ['a', '/', NUL, 'b'] ++ ['/'] ++ getFileName ['a', '/', NUL, 'b']) =
        "a/.".toList ∧ "a/.".toList ≠ ['a', '/', NUL, 'b']) := by
  refine ⟨⟨by decide, by decide, by rfl, by decide⟩, ⟨by decide, by decide, by rfl, by decide⟩⟩

/-- C12 at concrete inputs: `/usr/local/bin` and `/foo` come back from the round trip. -/
theorem parent_fileName_roundtrip_witness :
    genericPath (getParent "/usr/local/bin".toList ++ ['/'] ++ getFileName "/usr/local/bin".toList)
      = "/usr/local/bin".toList ∧
    genericPath (getParent "/foo".toList ++ ['/'] ++ getFileName "/foo".toList) = "/foo".toList :=
  ⟨(parent_fileName_roundtrip "/usr/local/bin".toList (by decide) (by decide) (by decide)
      (by decide)).2,
    (parent_fileName_roundtrip "/foo".toList (by decide) (by decide) (by decide) (by decide)).2⟩

/-! ### C13 -/

theorem isGeneric_of_plain {x : Str} (h1 : '/' ∉ x) (h2 : '\\' ∉ x) : IsGeneric x :=
  ⟨h2, fun hi => h1 (hi.subset (by simp))⟩

theorem getFileName_of_plain {x : Str} (h1 : '/' ∉ x) (h2 : '\\' ∉ x) : getFileName x = x := by
  unfold getFileName
  simp only
  rw [genericPath_of_isGeneric x (isGeneric_of_plain h1 h2), find_last_of_none '/' x h1]

theorem getFileName_plain (p : Str) : '/' ∉ getFileName p ∧ '\\' ∉ getFileName p := by
  refine ⟨?_, (getFileName_isGeneric p).1⟩
  unfold getFileName
  simp only
  cases hf : find_last_of '/' (genericPath p) with
  | none => exact find_last_of_eq_none _ _ hf
  | some k =>
    simp only
    split
    · decide
    · exact (find_last_of_some _ _ k hf).2.1

/-- C13: for every path whose file name is not `.`, `getExtension(getStem(p) + getExtension(p))`
is `getExtension(p)`. -/
theorem getExtension_stem_extension (p : Str) (h : getFileName p ≠ ['.']) :
    getExtension (getStem p ++ getExtension p) = getExtension p := by
  obtain ⟨f1, f2⟩ := getFileName_plain p
  cases hf : find_last_of '.' (getFileName p) with
  | none =>
    have hnd : '.' ∉ getFileName p := find_last_of_eq_none _ _ hf
    have es : getStem p = getFileName p := by
      unfold getStem
      simp only [if_neg h, hf]
    have ee : getExtension p = ['.'] := by
      unfold getExtension
      simp only [if_neg h, hf]
    rw [es, ee]
    have g1 : '/' ∉ getFileName p ++ ['.'] := by
      simp only [List.mem_append, List.mem_singleton, not_or]
      exact ⟨f1, by decide⟩
    have g2 : '\\' ∉ getFileName p ++ ['.'] := by
      simp only [List.mem_append, List.mem_singleton, not_or]
      exact ⟨f2, by decide⟩
    unfold getExtension
    simp only [getFileName_of_plain g1 g2]
    split
    · assumption
    · rw [find_last_of_append '.' (getFileName p) [] (by simp)]
      simp
  | some k =>
    have es : getStem p = (getFileName p).take k := by
      unfold getStem
      simp only [if_neg h, hf]
    have ee : getExtension p = (getFileName p).drop k := by
      unfold getExtension
      simp only [if_neg h, hf]
    rw [es, ee, List.take_append_drop]
    unfold getExtension
    simp only [getFileName_of_plain f1 f2, if_neg h, hf]

/-- C13 at the kinds of file name the claim lists: no dot, several dots, a dot-file, and the
empty path. -/
theorem getExtension_stem_extension_witness :
    (getStem "/d/readme".toList = "readme".toList ∧ getExtension "/d/readme".toList = ['.'] ∧
      getExtension (getStem "/d/readme".toList ++ getExtension "/d/readme".toList) = ['.']) ∧
    (getStem "/d/a.tar.gz".toList = "a.tar".toList ∧
      getExtension (getStem "/d/a.tar.gz".toList ++ getExtension "/d/a.tar.gz".toList) =
        ".gz".toList) ∧
    (getStem "/d/.bashrc".toList = [] ∧
      getExtension (getStem "/d/.bashrc".toList ++ getExtension "/d/.bashrc".toList) =
        ".bashrc".toList) :=
  ⟨⟨by rfl, by rfl, (getExtension_stem_extension "/d/readme".toList (by decide)).trans (by rfl)⟩,
    ⟨by rfl, (getExtension_stem_extension "/d/a.tar.gz".toList (by decide)).trans (by rfl)⟩,
    ⟨by rfl, (getExtension_stem_extension "/d/.bashrc".toList (by decide)).trans (by rfl)⟩⟩

/-! ### C14 -/

/-- C14 (amended): the raw input `C:\Users\foo\..\bar\.\baz.TXT` normalises to
`C:/Users/foo/../bar/./baz.TXT`; `getStem` of that path is `baz`, the file name without its
extension, and `getExtension` of it is `.TXT`. -/
theorem decomposition_scenario :
    genericPath "C:\\Users\\foo\\..\\bar\\.\\baz.TXT".toList =
      "C:/Users/foo/../bar/./baz.TXT".toList ∧
    getStem "C:/Users/foo/../bar/./baz.TXT".toList = "baz".toList ∧
    getExtension "C:/Users/foo/../bar/./baz.TXT".toList = ".TXT".toList := by
  refine ⟨by rfl, by rfl, by rfl⟩

/-- C14, as stated, fails: `getStem` of `C:/Users/foo/../bar/./baz.TXT` is `baz`, not
`C:/Users/foo/../bar/./baz`: the stem is cut from the file name, not from the whole path. -/
theorem decomposition_scenario_counterexample :
    getStem "C:/Users/foo/../bar/./baz.TXT".toList = "baz".toList ∧
    "baz".toList ≠ "C:/Users/foo/../bar/./baz".toList := by
  refine ⟨by rfl, by decide⟩

/-! ### C15 -/

theorem find_singleton_of_mem (c : Char) (s : Str) (h : c ∈ s) : ∃ k, find [c] s = some k := by
  cases hf : find [c] s with
  | some k => exact ⟨k, rfl⟩
  | none =>
    exfalso
    apply (find_eq_none_iff [c] s).mp hf
    obtain ⟨a, b, rfl⟩ := List.append_of_mem h
    exact ⟨a, b, by simp⟩

theorem find_singleton_of_not_mem (c : Char) (s : Str) (h : c ∉ s) : find [c] s = none := by
  rw [find_eq_none_iff]
  intro hi
  exact h (hi.subset (by simp))

theorem mem_insert_of_mem (c d : Char) (s : Str) (k : Nat) (h : c ∈ s) : c ∈ insert s k d := by
  unfold insert
  rw [← List.take_append_drop k s] at h
  simp only [List.mem_append, List.mem_cons] at h ⊢
  rcases h with h | h
  · exact Or.inl h
  · exact Or.inr (Or.inr h)

/-- The inner loop of `escapedPath` never exits when the character occurs: the backslash goes in
front of the first occurrence, which `find` then finds again. -/
theorem insertLoop_of_mem (c : Char) (fuel : Nat) (path : Str) (h : c ∈ path) :
    insertLoop fuel c path = none := by
  induction fuel generalizing path with
  | zero => rfl
  | succ n ih =>
    obtain ⟨k, hk⟩ := find_singleton_of_mem c path h
    rw [insertLoop, hk]
    exact ih _ (mem_insert_of_mem c '\\' path k h)

theorem insertLoop_of_not_mem (c : Char) (fuel : Nat) (path : Str) (h : c ∉ path) :
    insertLoop (fuel + 1) c path = some path := by
  rw [insertLoop, find_singleton_of_not_mem c path h]

theorem escapeLoop_of_mem (fuel : Nat) (cs : List Char) (path : Str)
    (h : ∃ c ∈ cs, c ∈ path) : escapeLoop fuel cs path = none := by
  induction cs with
  | nil =>
    obtain ⟨c, hc, _⟩ := h
    simp at hc
  | cons d rest ih =>
    rw [escapeLoop]
    by_cases hd : d ∈ path
    · rw [insertLoop_of_mem d fuel path hd]
      rfl
    · cases fuel with
      | zero => rfl
      | succ n =>
        rw [insertLoop_of_not_mem d n path hd, Option.some_bind]
        apply ih
        obtain ⟨c, hc, hcp⟩ := h
        rcases List.mem_cons.mp hc with hc | hc
        · subst hc; exact absurd hcp hd
        · exact ⟨c, hc, hcp⟩

theorem escapeLoop_of_not_mem (fuel : Nat) (cs : List Char) (path : Str)
    (h : ∀ c ∈ cs, c ∉ path) : escapeLoop (fuel + 1) cs path = some path := by
  induction cs with
  | nil => rfl
  | cons d rest ih =>
    rw [escapeLoop, insertLoop_of_not_mem d fuel path (h d (by simp)), Option.some_bind]
    exact ih (fun c hc => h c (by simp [hc]))

/-- C15: the code at the failing input.  In the branch without drive letters `escapedPath`
never returns for `/a b`, nor for any path whose normal form holds a character of
`invalidChars`: no number of rounds lets the inner loop exit.  It returns, with the normal form
unchanged, exactly for the paths that need no escaping. -/
theorem escapedPath_never_returns :
    (∀ fuel, escapedPath false fuel "/a b".toList = none) ∧
    (∀ p : Str, (∃ c ∈ invalidChars, c ∈ genericPath p) →
      ∀ fuel, escapedPath false fuel p = none) ∧
    (∀ p : Str, (∀ c ∈ invalidChars, c ∉ genericPath p) →
      ∀ fuel, escapedPath false (fuel + 1) p = some (genericPath p)) := by
  have h2 : ∀ p : Str, (∃ c ∈ invalidChars, c ∈ genericPath p) →
      ∀ fuel, escapedPath false fuel p = none := by
    intro p h fuel
    unfold escapedPath
    simp only [Bool.false_eq_true, if_false]
    exact escapeLoop_of_mem fuel invalidChars _ h
  refine ⟨fun fuel => h2 _ ⟨' ', by decide, by decide⟩ fuel, h2, ?_⟩
  intro p h fuel
  unfold escapedPath
  simp only [Bool.false_eq_true, if_false]
  exact escapeLoop_of_not_mem fuel invalidChars _ h

/-! ### C20 -/

/-- C20: termination of `absolutePath`.  When the current-working-directory query yields an
absolute path, `absolutePath(path, base)` returns for every `path` and `base` with at most one
nested self-call: none for an absolute `base`, and for a relative `base` one nested call, which
itself nests no further.  Without that precondition the recursion does not end for any relative
`base`. -/
theorem absolutePath_terminates (win : Bool) (env : Env) :
    (isAbsolute win (getCWDPath env) = true → ∀ p base : Str,
      (∃ r, ∀ fuel, 2 ≤ fuel → absolutePath win env fuel p base = some r) ∧
      (isAbsolute win base = true → ∃ r, absolutePath win env 1 p base = some r) ∧
      (isAbsolute win base = false →
        ∃ b, absolutePath win env 1 base (defaultBase env) = some b)) ∧
    (isAbsolute win (getCWDPath env) = false → ∀ p base : Str,
      isAbsolute win base = false → ∀ fuel, absolutePath win env fuel p base = none) := by
  constructor
  · intro hc p base
    refine ⟨?_, fun hb => ⟨_, absolutePath_of_absolute_base win env 0 p base hb⟩,
      fun _ => ⟨_, absolutePath_of_absolute_base win env 0 base _ hc⟩⟩
    by_cases hb : isAbsolute win base = true
    · exact ⟨_, fun fuel hf => absolutePath_mono win env 1 p base _
        (absolutePath_of_absolute_base win env 0 p base hb) fuel (by omega)⟩
    · have hb2 : isAbsolute win base = false := by simpa using hb
      exact ⟨_, fun fuel hf => absolutePath_mono win env 2 p base _
        (absolutePath_of_relative_base win env 0 p base hb2 hc) fuel hf⟩
  · intro hc p base hb fuel
    exact absolutePath_none_of_relative win env fuel p base hb hc

/-! ### C16 -/

theorem isDirectory_genericPath (fs : FS) (p : Str) :
    isDirectory fs (genericPath p) = isDirectory fs p := by
  unfold isDirectory
  rw [genericPath_idem]

theorem sort_nil : sort [] = [] := rfl

/-- C16: `getDirContent(path)` is empty when the normalised path is not a directory, in
particular when it does not exist, and when the directory cannot be opened.  Otherwise it is a
permutation of the entry names that the directory iteration yields, `.` and `..` removed, and it
is sorted in ascending lexicographic order of the character codes. -/
theorem getDirContent_listing (win : Bool) (fs : FS) (p : Str) :
    (isDirectory fs p = false → getDirContent win fs p = []) ∧
    (fs.stat (cstr (genericPath p)) = none → getDirContent win fs p = []) ∧
    (∀ entries, isDirectory fs p = true →
      (if win then fs.findFiles (cstr (genericPath p ++ ['/', '*']))
        else fs.opendir (cstr (genericPath p))) = some entries →
      (getDirContent win fs p).Perm
        ((entries.map cstr).filter (fun name => decide (name ≠ ['.'] ∧ name ≠ ['.', '.']))) ∧
      (getDirContent win fs p).Sorted (· ≤ ·)) ∧
    (isDirectory fs p = true →
      (if win then fs.findFiles (cstr (genericPath p ++ ['/', '*']))
        else fs.opendir (cstr (genericPath p))) = none → getDirContent win fs p = []) := by
  have hnd : isDirectory fs p = false → getDirContent win fs p = [] := by
    intro h
    unfold getDirContent
    simp only [isDirectory_genericPath, h]
    rfl
  refine ⟨hnd, fun hs => hnd ?_, fun entries hd he => ?_, fun hd he => ?_⟩
  · unfold isDirectory
    simp only [hs]
  · have e : getDirContent win fs p = sort ((entries.map cstr).filter
        (fun name => decide (name ≠ ['.'] ∧ name ≠ ['.', '.']))) := by
      unfold getDirContent
      simp only [isDirectory_genericPath, hd, if_true, he]
    rw [e]
    exact ⟨List.perm_insertionSort _ _, List.sorted_insertionSort _ _⟩
  · unfold getDirContent
    simp only [isDirectory_genericPath, hd, if_true, he]
    rfl

/-- C16 at the input of the claim: the directory `/d` with the entries `.`, `..`, `b.txt`,
`a.txt` and `.hidden` is listed as `.hidden`, `a.txt`, `b.txt` in both branches, and a path that
does not exist has the empty listing. -/
theorem getDirContent_listing_witness :
    getDirContent false listingFS "/d".toList =
      [".hidden".toList, "a.txt".toList, "b.txt".toList] ∧
    getDirContent true listingFS "/d".toList =
      [".hidden".toList, "a.txt".toList, "b.txt".toList] ∧
    getDirContent false listingFS "/nowhere".toList = [] :=
  ⟨by decide, by decide, (getDirContent_listing false listingFS "/nowhere".toList).2.1 (by rfl)⟩

/-! ### C19 -/

theorem run_succ (win : Bool) (fs : FS) (n : Nat) (s : State) :
    run win fs (n + 1) s = run win fs n (step win fs s) := by
  unfold run
  rw [Function.iterate_succ_apply]

theorem run_add (win : Bool) (fs : FS) (m n : Nat) (s : State) :
    run win fs (m + n) s = run win fs m (run win fs n s) := by
  unfold run
  rw [Function.iterate_add_apply]

theorem step_of_isFinal (win : Bool) (fs : FS) (s : State) (h : s.isFinal = true) :
    step win fs s = s := by
  cases s with
  | WALKING p r => simp [State.isFinal] at h
  | SPLICED p => simp [State.isFinal] at h
  | DONE p => rfl
  | FAILED => rfl

theorem run_of_isFinal (win : Bool) (fs : FS) (n : Nat) (s : State) (h : s.isFinal = true) :
    run win fs n s = s := by
  induction n with
  | zero => rfl
  | succ k ih => rw [run_succ, step_of_isFinal win fs s h, ih]

/-- The state machine follows the walk of `canonicalPath`: from `WALKING path segs` it reaches
the state in which `walk path segs` ends. -/
theorem run_walk (win : Bool) (fs : FS) (segs : List Str) (path : Str) :
    ∃ m, run win fs (m + 1) (State.WALKING path segs) = endState (walk win fs path segs) := by
  induction segs generalizing path with
  | nil => exact ⟨0, rfl⟩
  | cons it rest ih =>
    by_cases h0 : it.length = 0
    · obtain ⟨m, hm⟩ := ih path
      refine ⟨m + 1, ?_⟩
      rw [run_succ, walk, if_pos h0, ← hm]
      simp only [step, if_pos h0]
    · by_cases h1 : it = ['.']
      · obtain ⟨m, hm⟩ := ih path
        refine ⟨m + 1, ?_⟩
        rw [run_succ, walk, if_neg h0, if_pos h1, ← hm]
        simp only [step, if_neg h0, if_pos h1]
      · by_cases h2 : it = ['.', '.']
        · obtain ⟨m, hm⟩ := ih (getParent path)
          refine ⟨m + 1, ?_⟩
          rw [run_succ, walk, if_neg h0, if_neg h1, if_pos h2, ← hm]
          simp only [step, if_neg h0, if_neg h1, if_pos h2]
        · have hs : step win fs (State.WALKING path (it :: rest)) =
              if isSymlink win fs (nextPath win path it) then
                if (resolveSymlink win fs (nextPath win path it)).length = 0 then State.FAILED
                else State.SPLICED (reappend
                  (if isAbsolute win (resolveSymlink win fs (nextPath win path it)) then
                    resolveSymlink win fs (nextPath win path it)
                  else getParent (nextPath win path it) ++ ['/'] ++
                    resolveSymlink win fs (nextPath win path it)) rest)
              else State.WALKING (nextPath win path it) rest := by
            simp only [step, if_neg h0, if_neg h1, if_neg h2]
            rfl
          rw [walk_cons_keep win fs path it rest h0 h1 h2]
          by_cases h3 : isSymlink win fs (nextPath win path it) = true
          · refine ⟨0, ?_⟩
            rw [if_pos h3]
            show step win fs (State.WALKING path (it :: rest)) = _
            rw [hs, if_pos h3]
            split <;> rfl
          · obtain ⟨m, hm⟩ := ih (nextPath win path it)
            refine ⟨m + 1, ?_⟩
            rw [run_succ, hs, if_neg h3, if_neg h3, hm]

/-- The walk over segments none of whose paths is a symbolic link. -/
theorem walk_no_link (fs : FS) (ds : List Str) (hds : ∀ d ∈ ds, IsName d)
    (hno : ∀ pre, pre <+: ds → isSymlink false fs (rebuild false pre) = false)
    (tail : List Str) :
    ∀ suf pre, pre ++ suf = ds →
      walk false fs (rebuild false pre) (suf ++ tail) = walk false fs (rebuild false ds) tail := by
  intro suf
  induction suf with
  | nil =>
    intro pre h
    simp at h
    subst h
    rfl
  | cons d suf2 ih =>
    intro pre h
    have hd : IsName d := hds d (by rw [← h]; simp)
    have h0 : d.length ≠ 0 := fun e => hd.1 (List.length_eq_zero.mp e)
    have hp : pre ++ [d] <+: ds := ⟨suf2, by rw [← h]; simp⟩
    rw [List.cons_append, walk_cons_keep false fs _ d _ h0 hd.2.1 hd.2.2.1, nextPath_rebuild,
      hno _ hp]
    simp only [Bool.false_eq_true, if_false]
    exact ih (pre ++ [d]) (by rw [← h]; simp)

/-- C19: symlink cycle, in the branch without drive letters.  Let `D/n` be a symbolic link
whose text is its own name `n` or its own path, no directory above it being a link.  The first
walk of `canonicalPath(D/n)` splices the same path in again; in the state machine the run
started on that path reaches neither `DONE` nor `FAILED`, after any number of steps; and no
number of restarts lets the scan loop, or `canonicalPath`, return. -/
theorem symlink_cycle (env : Env) (fs : FS) (ds : List Str) (n text : Str)
    (hds : ∀ d ∈ ds, IsName d) (hn : IsName n)
    (hno : ∀ pre, pre <+: ds → isSymlink false fs (rebuild false pre) = false)
    (hl : fs.lstat (rebuild false (ds ++ [n])) = some ⟨FileType.symlink, text.length⟩)
    (hr : fs.readlink (rebuild false (ds ++ [n])) = some text)
    (ht : text = n ∨ text = rebuild false (ds ++ [n])) :
    walk false fs [] (pathList (rebuild false (ds ++ [n]))) =
      Walk.spliced (rebuild false (ds ++ [n])) ∧
    (∀ k, (run false fs k (State.WALKING [] (pathList (rebuild false (ds ++ [n]))))).isFinal
      = false) ∧
    (∀ fuel, scanLoop false fs fuel (rebuild false (ds ++ [n])) = none) ∧
    (∀ fuel, canonicalPath false env fs fuel (rebuild false (ds ++ [n])) = none) := by
  have hall : ∀ s ∈ ds ++ [n], IsName s := by
    intro s hs
    rcases List.mem_append.mp hs with hs | hs
    · exact hds s hs
    · simp at hs
      subst hs
      exact hn
  have hseg : ∀ s ∈ ds ++ [n], IsSegment s := fun s hs => (hall s hs).isSegment
  have hdsS : ∀ s ∈ ds, IsSegment s := fun s hs => (hds s hs).isSegment
  obtain ⟨g1, g2⟩ := rebuild_isGeneric false (ds ++ [n]) hseg
  obtain ⟨d1, d2⟩ := rebuild_isGeneric false ds hdsS
  have hgl : genericPath (rebuild false (ds ++ [n])) = rebuild false (ds ++ [n]) :=
    genericPath_of_isGeneric _ g1
  have hcl : cstr (genericPath (rebuild false ds ++ '/' :: n)) = rebuild false (ds ++ [n]) := by
    rw [← rebuild_posix_snoc, hgl]
    exact cstr_of_not_mem _
      (not_mem_rebuild NUL nul_ne_slash _ (fun s hs => (hall s hs).2.2.2.2.2))
  have hne : rebuild false (ds ++ [n]) ≠ [] := by
    rw [rebuild_posix_snoc]; simp
  have habs : isAbsolute false (rebuild false (ds ++ [n])) = true := by
    apply isAbsolute_posix_of_head
    rw [hgl, rebuild_posix_snoc]
    exact rebuild_append_head ds n
  -- the walk stops at the link and splices the same path in
  have hwalk : walk false fs [] (pathList (rebuild false (ds ++ [n]))) =
      Walk.spliced (rebuild false (ds ++ [n])) := by
    have hpl := pathList_rebuild (ds ++ [n]) [] hseg (by simp) (Or.inl rfl)
    rw [List.append_nil] at hpl
    rw [hpl, walk_nil_cons]
    have hw := walk_no_link fs ds hds hno [n] ds [] (by simp)
    rw [rebuild_nil] at hw
    rw [hw]
    have htn : text ≠ [] := by
      rcases ht with ht | ht
      · rw [ht]; exact hn.1
      · rw [ht]; exact hne
    have hgt : genericPath text ≠ [] := by
      rcases ht with ht | ht
      · rw [ht, genericPath_of_isGeneric _ (isGeneric_segment hn.isSegment)]; exact hn.1
      · rw [ht, hgl]; exact hne
    rw [walk_at_link fs _ text (rebuild false ds) n [] ⟨hn.1, hn.2.1, hn.2.2.1⟩ hcl hl hr htn hgt]
    congr 1
    rcases ht with ht | ht
    · have hrel : isAbsolute false n = false := by
        unfold isAbsolute
        rw [genericPath_of_isGeneric _ (isGeneric_segment hn.isSegment)]
        have hn1 := hn.1
        have hn4 := hn.2.2.2.1
        cases n with
        | nil => exact absurd rfl hn1
        | cons c r =>
          have : c ≠ '/' := fun e => hn4 (by simp [e])
          simp [charAt, this]
      rw [ht, genericPath_of_isGeneric _ (isGeneric_segment hn.isSegment), hrel,
        getParent_append_segment d1 d2 hn.isSegment]
      simp [reappend, rebuild_posix_snoc]
    · rw [ht, hgl, habs]
      simp [reappend]
  have hscan : ∀ fuel, scanLoop false fs fuel (rebuild false (ds ++ [n])) = none := by
    intro fuel
    induction fuel with
    | zero => rfl
    | succ k ih => rw [scanLoop_of_spliced false fs k _ _ hwalk, ih]
  refine ⟨hwalk, ?_, hscan, ?_⟩
  · -- the run comes back to its first state, and a final state would stay for ever
    obtain ⟨m, hm⟩ := run_walk false fs (pathList (rebuild false (ds ++ [n]))) []
    rw [hwalk] at hm
    have hcycle : run false fs (m + 2) (State.WALKING [] (pathList (rebuild false (ds ++ [n]))))
        = State.WALKING [] (pathList (rebuild false (ds ++ [n]))) := by
      have : m + 2 = 1 + (m + 1) := by omega
      rw [this, run_add, hm]
      rfl
    have hmany : ∀ j, run false fs (j * (m + 2))
        (State.WALKING [] (pathList (rebuild false (ds ++ [n])))) =
        State.WALKING [] (pathList (rebuild false (ds ++ [n]))) := by
      intro j
      induction j with
      | zero => simp [run]
      | succ i ih =>
        have : (i + 1) * (m + 2) = i * (m + 2) + (m + 2) := by ring
        rw [this, run_add, hcycle, ih]
    intro k
    by_contra hfin
    have hfin2 : (run false fs k
        (State.WALKING [] (pathList (rebuild false (ds ++ [n]))))).isFinal = true := by
      simpa using hfin
    have hk : k ≤ k * (m + 2) := Nat.le_mul_of_pos_right k (by omega)
    obtain ⟨e, he⟩ : ∃ e, k * (m + 2) = e + k := ⟨k * (m + 2) - k, by omega⟩
    have h1 := hmany k
    rw [he, run_add, run_of_isFinal false fs e _ hfin2] at h1
    rw [h1] at hfin2
    simp [State.isFinal] at hfin2
  · intro fuel
    unfold canonicalPath defaultBase
    cases fuel with
    | zero => rfl
    | succ k =>
      by_cases hc : isAbsolute false (getCWDPath env) = true
      · rw [absolutePath_of_absolute_base false env k _ _ hc, if_pos habs, Option.some_bind, hgl]
        exact hscan (k + 1)
      · have hc2 : isAbsolute false (getCWDPath env) = false := by simpa using hc
        rw [absolutePath_none_of_relative false env (k + 1) _ _ hc2 hc2]
        rfl

/-- C19 at the inputs of the claim: for the link `/l` with the text `l`, and with the text
`/l`, each walk of `/l` splices `/l` in again and `canonicalPath("/l")` never returns. -/
theorem symlink_cycle_witness :
    (walk false selfLinkFS [] (pathList "/l".toList) = Walk.spliced "/l".toList ∧
      ∀ fuel, canonicalPath false envCwd selfLinkFS fuel "/l".toList = none) ∧
    (walk false selfLinkAbsFS [] (pathList "/l".toList) = Walk.spliced "/l".toList ∧
      ∀ fuel, canonicalPath false envCwd selfLinkAbsFS fuel "/l".toList = none) :=
  ⟨⟨(symlink_cycle envCwd selfLinkFS [] "l".toList "l".toList (fun d hd => by simp at hd)
        ⟨by decide, by decide, by decide, by decide, by decide, by decide⟩
        (fun pre hp => by
          have : pre = [] := List.prefix_nil.mp hp
          subst this
          rfl)
        (by rfl) (by rfl) (Or.inl rfl)).1,
      (symlink_cycle envCwd selfLinkFS [] "l".toList "l".toList (fun d hd => by simp at hd)
        ⟨by decide, by decide, by decide, by decide, by decide, by decide⟩
        (fun pre hp => by
          have : pre = [] := List.prefix_nil.mp hp
          subst this
          rfl)
        (by rfl) (by rfl) (Or.inl rfl)).2.2.2⟩,
    ⟨(symlink_cycle envCwd selfLinkAbsFS [] "l".toList "/l".toList (fun d hd => by simp at hd)
        ⟨by decide, by decide, by decide, by decide, by decide, by decide⟩
        (fun pre hp => by
          have : pre = [] := List.prefix_nil.mp hp
          subst this
          rfl)
        (by rfl) (by rfl) (Or.inr (by rfl))).1,
      (symlink_cycle envCwd selfLinkAbsFS [] "l".toList "/l".toList (fun d hd => by simp at hd)
        ⟨by decide, by decide, by decide, by decide, by decide, by decide⟩
        (fun pre hp => by
          have : pre = [] := List.prefix_nil.mp hp
          subst this
          rfl)
        (by rfl) (by rfl) (Or.inr (by rfl))).2.2.2⟩⟩

/-! ### createDirectory -/

end Utils.FileSystem
